import Mathlib

/-!
Verification of the LvArray sorted-array manipulation routines
(`src/src/sortedArrayManipulation.hpp`) and the ragged ArrayOfArrays
container (`src/ArrayOfArraysView.hpp`).

The element type `T` is instantiated at `Int` and the signed index type
`INDEX_TYPE` is modelled by `Nat` for array positions and sizes (every
routine asserts its sizes and positions are non-negative, so the behavior
verified here is the behavior on the asserted domain) and by `Int` where the
sign of a stored quantity matters (the ArrayOfArrays offsets and sizes).

An array `ptr` of live length `size` is modelled by a `List Int` of that
length.  The low-level primitives of `arrayManipulation.hpp` (a file whose
declarations are used here but whose body is not part of this source tree)
are modelled from the spec, as flagged on each such definition.
-/

namespace sortedArrayManipulation

/-- Lower-bound position of `value` in `l`: the number of entries smaller
than `value`.  For a sorted list this is the index of the first entry that
is not smaller than `value`, the value `std::lower_bound` computes. -/
def lowerB (l : List Int) (value : Int) : Nat :=
  l.countP (fun x => decide (x < value))

/-- The binary-search loop of `sortedArrayManipulation::find`
(sortedArrayManipulation.hpp lines 326-339), with explicit fuel: while
`lower != upper`, guess `(lower + upper) / 2` and narrow the bracket. -/
def findLoop (l : List Int) (value : Int) : Nat → Nat → Nat → Nat
  | 0, lower, _ => lower
  | fuel + 1, lower, upper =>
    if lower = upper then lower
    else
      let guess := (lower + upper) / 2
      if l.getD guess 0 < value then findLoop l value fuel (guess + 1) upper
      else findLoop l value fuel lower guess

/-- `sortedArrayManipulation::find` (sortedArrayManipulation.hpp lines
318-342): binary search for the first entry greater than or equal to
`value`; the loop starts with the bracket `[0, size)` and runs until the
bracket is empty, which takes fewer than `size + 1` halvings. -/
def find (l : List Int) (value : Int) : Nat :=
  findLoop l value (l.length + 1) 0 l.length

/-- `sortedArrayManipulation::contains` (sortedArrayManipulation.hpp lines
357-363): `find` plus a bounds and equality check. -/
def containsV (l : List Int) (value : Int) : Bool :=
  let pos := find l value
  pos ≠ l.length && l.getD pos 0 = value

end sortedArrayManipulation

namespace arrayManipulation

/-- Modelled from the spec: `arrayManipulation::insert(ptr, size, pos, args...)`
(arrayManipulation.hpp is referenced but not part of this source tree; spec
§4.1: shifts elements `[pos, size)` up by one slot, then constructs the new
value at `pos`). -/
def insertAt (l : List Int) (pos : Nat) (value : Int) : List Int :=
  List.insertIdx pos value l

/-- Modelled from the spec: `arrayManipulation::erase(ptr, size, pos, n)`
(arrayManipulation.hpp is referenced but not part of this source tree; spec
§4.1: destroys `n` elements starting at `pos`, shifts `[pos+n, size)` down
by `n`). -/
def eraseN (l : List Int) (pos n : Nat) : List Int :=
  l.take pos ++ l.drop (pos + n)

/-- Modelled from the spec: `arrayManipulation::shiftDown(ptr, size, index,
amount)` (arrayManipulation.hpp is referenced but not part of this source
tree; spec §4.1: relocate the contiguous run `[index, size)` down by
`amount` slots without changing count).  The buffer keeps its length; the
vacated trailing slots retain their old entries, exactly as moved-from
storage does. -/
def shiftDown (l : List Int) (size index amount : Nat) : List Int :=
  (List.range l.length).map fun p =>
    if index ≤ p + amount ∧ p + amount < size then l.getD (p + amount) 0
    else l.getD p 0

/-- Modelled from the spec: `arrayManipulation::shiftUp(ptr, size, index,
amount)` (arrayManipulation.hpp is referenced but not part of this source
tree; spec §4.1: relocate the contiguous run `[index, size)` up by `amount`
slots without changing count).  Slots outside the destination range keep
their old entries. -/
def shiftUp (l : List Int) (size index amount : Nat) : List Int :=
  (List.range l.length).map fun p =>
    if index + amount ≤ p ∧ p < size + amount then l.getD (p - amount) 0
    else l.getD p 0

end arrayManipulation

namespace sortedArrayManipulation

/-- The result of `sortedArrayManipulation::insert` (single value): the
return value, the resulting array, and the arguments of every
`callBacks.incrementSize` and `callBacks.insert` invocation, in call
order. -/
structure InsertResult where
  inserted : Bool
  arr : List Int
  incrementSizeCalls : List Nat
  insertCalls : List Nat
deriving DecidableEq

/-- The insertion-point selection of `sortedArrayManipulation::insert`
(sortedArrayManipulation.hpp lines 564-577): empty array or before-first
fast path, after-last fast path, otherwise binary search. -/
def insertPosOf (l : List Int) (value : Int) : Nat :=
  if l.length = 0 ∨ value < l.getD 0 0 then 0
  else if l.getD (l.length - 1) 0 < value then l.length
  else find l value

/-- `sortedArrayManipulation::insert` single-value overload
(sortedArrayManipulation.hpp lines 559-591): locate the insertion point;
if the value is present call `incrementSize(0)` and return false,
otherwise call `incrementSize(1)`, insert and call `insert(insertPos)`. -/
def insert (l : List Int) (value : Int) : InsertResult :=
  let insertPos := insertPosOf l value
  if insertPos ≠ l.length ∧ l.getD insertPos 0 = value then
    { inserted := false, arr := l, incrementSizeCalls := [0], insertCalls := [] }
  else
    { inserted := true, arr := arrayManipulation.insertAt l insertPos value,
      incrementSizeCalls := [1], insertCalls := [insertPos] }

/-- The initial scan of `sortedArrayManipulation::removeSorted`
(sortedArrayManipulation.hpp lines 432-448): walk the batch from the
smallest value; return 0 for the whole call (`none`) as soon as a value is
beyond the end of the array, and otherwise stop (`some`) at the first batch
value found in the array, yielding its batch index and array position. -/
def removeFirstScan (l : List Int) : List Int → Nat → Option (Nat × Nat)
  | [], _ => none
  | v :: rest, i =>
    let curPos := find l v
    if curPos = l.length then none
    else if l.getD curPos 0 = v then some (i, curPos)
    else removeFirstScan l rest (i + 1)

/-- The inner scan of `sortedArrayManipulation::removeSorted`
(sortedArrayManipulation.hpp lines 458-481): starting at batch index `j`,
skip duplicate batch values, and locate the next batch value present in the
array at or beyond `curPos`; defaults to `(nVals, size)`. -/
def removeNextScan (buf values : List Int) (size curPos : Nat) :
    Nat → Nat → Nat × Nat
  | 0, _ => (values.length, size)
  | fuel + 1, j =>
    if j < values.length then
      if values.getD j 0 = values.getD (j - 1) 0 then
        removeNextScan buf values size curPos fuel (j + 1)
      else
        let pos := find (buf.drop curPos) (values.getD j 0) + curPos
        if pos = size then (values.length, size)
        else if buf.getD pos 0 = values.getD j 0 then (j, pos)
        else removeNextScan buf values size curPos fuel (j + 1)
    else (values.length, size)

/-- The removal loop of `sortedArrayManipulation::removeSorted`
(sortedArrayManipulation.hpp lines 454-494): repeatedly find the next value
to remove and shift the surviving run `[curPos+1, nextPos)` down over the
removed entries. -/
def removeMainLoop (values : List Int) (size : Nat) :
    Nat → List Int → Nat → Nat → Nat → Nat × List Int
  | 0, buf, _, _, nRemoved => (nRemoved, buf)
  | fuel + 1, buf, curValuePos, curPos, nRemoved =>
    if curValuePos < values.length then
      let next := removeNextScan buf values size curPos (values.length + 1)
        (curValuePos + 1)
      let buf' := arrayManipulation.shiftDown buf next.2 (curPos + 1) (nRemoved + 1)
      if next.2 = size then (nRemoved + 1, buf')
      else removeMainLoop values size fuel buf' next.1 next.2 (nRemoved + 1)
    else (nRemoved, buf)

/-- `sortedArrayManipulation::removeSorted` (sortedArrayManipulation.hpp
lines 419-503), returning the number of removed entries and the remaining
live array (the trailing moved-from slots are destroyed at the end). -/
def removeSorted (l : List Int) (values : List Int) : Nat × List Int :=
  if values.length = 0 then (0, l)
  else
    match removeFirstScan l values 0 with
    | none => (0, l)
    | some (firstValuePos, curPos) =>
      let res := removeMainLoop values l.length (values.length + 1) l
        firstValuePos curPos 0
      (res.1, res.2.take (l.length - res.1))

/-- `sortedArrayManipulation::makeSorted` (sortedArrayManipulation.hpp lines
150-173).  Modelled from the spec for its internals: the introsort and
insertion-sort helpers live in sortedArrayManipulationHelpers.hpp, which is
not part of this source tree; the documented contract is equivalence with
`std::sort(first, last)`. -/
def makeSorted (l : List Int) : List Int :=
  List.insertionSort (· ≤ ·) l

/-- `sortedArrayManipulation::remove` unsorted-batch overload
(sortedArrayManipulation.hpp lines 521-540): copy the batch into a
temporary buffer, sort it, and call `removeSorted`. -/
def remove (l : List Int) (values : List Int) : Nat × List Int :=
  removeSorted l (makeSorted values)

/-- `MAX_PRE_CALCULATED` of `insertSorted` (sortedArrayManipulation.hpp
line 671): up to this many insertion points are cached between the
counting pass and the placement pass. -/
def MAX_PRE_CALCULATED : Nat := 32

/-- The running state of the counting pass of `insertSorted`
(sortedArrayManipulation.hpp lines 671-697): the narrowing search bound
`curPos`, the number of genuinely new values found so far, and the
recorded `(valuePositions[k], insertPositions[k])` pairs in recording
order. -/
structure CountState where
  curPos : Nat
  nToInsert : Nat
  pairs : List (Nat × Nat)
deriving DecidableEq

/-- One iteration of the counting pass of `insertSorted` at batch index
`i` (sortedArrayManipulation.hpp lines 677-697): skip adjacent
duplicates, binary-search the prefix `[0, curPos)`, and if the value is
absent record its positions (while fewer than `MAX_PRE_CALCULATED` have
been recorded) and count it. -/
def countStep (l values : List Int) (i : Nat) (st : CountState) : CountState :=
  if i ≠ 0 ∧ values.getD i 0 = values.getD (i - 1) 0 then st
  else
    let curPos := find (l.take st.curPos) (values.getD i 0)
    if curPos = l.length ∨ l.getD curPos 0 ≠ values.getD i 0 then
      { curPos := curPos, nToInsert := st.nToInsert + 1,
        pairs :=
          if st.nToInsert < MAX_PRE_CALCULATED then st.pairs ++ [(i, curPos)]
          else st.pairs }
    else { st with curPos := curPos }

/-- The counting pass of `insertSorted`, iterating batch indices from `i`
down to 0 (sortedArrayManipulation.hpp lines 676-697). -/
def countLoop (l values : List Int) : Nat → CountState → CountState
  | 0, st => countStep l values 0 st
  | i + 1, st => countLoop l values i (countStep l values (i + 1) st)

/-- Phase one of the placement pass of `insertSorted`
(sortedArrayManipulation.hpp lines 710-723): consume the recorded pairs in
order, shifting the block `[insertPositions[k], prevInsertPos)` up by the
number of insertions still pending and writing the value below it.
Returns the final buffer and the final `prevInsertPos`. -/
def phase1 (values : List Int) (nToInsert : Nat) :
    List (Nat × Nat) → Nat → List Int → Nat → List Int × Nat
  | [], _, buf, prevPos => (buf, prevPos)
  | (vp, ip) :: rest, k, buf, prevPos =>
    let buf1 := arrayManipulation.shiftUp buf prevPos ip (nToInsert - k)
    let buf2 := buf1.set (ip + (nToInsert - (k + 1))) (values.getD vp 0)
    phase1 values nToInsert rest (k + 1) buf2 ip

/-- Phase two of the placement pass of `insertSorted`
(sortedArrayManipulation.hpp lines 729-755): re-scan the batch downward
from below the last pre-calculated value position, skipping duplicates and
values already present, recomputing each insertion point by binary search
on the untouched prefix `[0, prevInsertPos)` of the new buffer. -/
def phase2 (values : List Int) (nToInsert : Nat) :
    Nat → List Int → Nat → Nat → Nat → List Int
  | 0, buf, _, _, _ => buf
  | fuel + 1, buf, i, prevPos, nInserted =>
    if values.getD i 0 = values.getD (i + 1) 0 then
      if i = 0 then buf
      else phase2 values nToInsert fuel buf (i - 1) prevPos nInserted
    else
      let pos := find (buf.take prevPos) (values.getD i 0)
      if pos ≠ prevPos ∧ buf.getD pos 0 = values.getD i 0 then
        if i = 0 then buf
        else phase2 values nToInsert fuel buf (i - 1) prevPos nInserted
      else
        let buf1 := arrayManipulation.shiftUp buf prevPos pos
          (nToInsert - nInserted)
        let buf2 := buf1.set (pos + (nToInsert - (nInserted + 1)))
          (values.getD i 0)
        if nInserted + 1 = nToInsert then buf2
        else if i = 0 then buf2
        else phase2 values nToInsert fuel buf2 (i - 1) pos (nInserted + 1)

/-- The unique-count loop of the empty-array special case of
`insertSorted` (sortedArrayManipulation.hpp lines 637-642), iterating `i`
upward from 1. -/
def emptyCountFrom (values : List Int) : Nat → Nat → Nat
  | 0, _ => 0
  | fuel + 1, i =>
    if i < values.length then
      (if values.getD i 0 ≠ values.getD (i - 1) 0 then 1 else 0) +
        emptyCountFrom values fuel (i + 1)
    else 0

/-- The write loop of the empty-array special case of `insertSorted`
(sortedArrayManipulation.hpp lines 652-661): the values written after
position 0, in write order. -/
def emptyBuildFrom (values : List Int) : Nat → Nat → List Int
  | 0, _ => []
  | fuel + 1, i =>
    if i < values.length then
      if values.getD i 0 ≠ values.getD (i - 1) 0 then
        values.getD i 0 :: emptyBuildFrom values fuel (i + 1)
      else emptyBuildFrom values fuel (i + 1)
    else []

/-- The result of `sortedArrayManipulation::insertSorted`: the return
value, the final live array, and the argument of every
`callBacks.incrementSize` invocation in call order. -/
structure InsertSortedResult where
  returnValue : Nat
  arr : List Int
  incrementSizeCalls : List Nat
deriving DecidableEq

/-- `sortedArrayManipulation::insertSorted` (sortedArrayManipulation.hpp
lines 615-760).  The buffer returned by `incrementSize(nToInsert)` is the
old array extended by `nToInsert` uninitialized slots (modelled as 0,
always overwritten before becoming live). -/
def insertSorted (l values : List Int) : InsertSortedResult :=
  if values.length = 0 then
    { returnValue := 0, arr := l, incrementSizeCalls := [0] }
  else if l.length = 0 then
    let nToInsert := 1 + emptyCountFrom values values.length 1
    { returnValue := nToInsert,
      arr := values.getD 0 0 :: emptyBuildFrom values values.length 1,
      incrementSizeCalls := [nToInsert] }
  else
    let st := countLoop l values (values.length - 1)
      { curPos := l.length, nToInsert := 0, pairs := [] }
    if st.nToInsert = 0 then
      { returnValue := 0, arr := l, incrementSizeCalls := [st.nToInsert] }
    else
      let buf0 := l ++ List.replicate st.nToInsert 0
      let p1 := phase1 values st.nToInsert st.pairs 0 buf0 l.length
      if st.nToInsert ≤ MAX_PRE_CALCULATED then
        { returnValue := st.nToInsert, arr := p1.1,
          incrementSizeCalls := [st.nToInsert] }
      else
        let prevValuePos := (st.pairs.getD (MAX_PRE_CALCULATED - 1) (0, 0)).1
        if prevValuePos = 0 then
          { returnValue := st.nToInsert, arr := p1.1,
            incrementSizeCalls := [st.nToInsert] }
        else
          { returnValue := st.nToInsert,
            arr := phase2 values st.nToInsert (values.length + 1) p1.1
              (prevValuePos - 1) p1.2 MAX_PRE_CALCULATED,
            incrementSizeCalls := [st.nToInsert] }

/-- Batch index `i` is the first occurrence of its value in a sorted
batch: the counting pass of `insertSorted` processes exactly these
indices. -/
def firstOccB (values : List Int) (i : Nat) : Bool :=
  decide (i = 0) || decide (values.getD i 0 ≠ values.getD (i - 1) 0)

/-- The batch indices `j ≤ i`, in descending order, whose value is a first
occurrence and absent from the array: exactly the indices the counting
pass of `insertSorted` counts (and whose positions it records). -/
def newIdx (l values : List Int) : Nat → List Nat
  | 0 => if values.getD 0 0 ∉ l then [0] else []
  | i + 1 =>
    (if firstOccB values (i + 1) ∧ values.getD (i + 1) 0 ∉ l then [i + 1]
     else []) ++ newIdx l values i

/-- The `(value, insertion position)` pairs the placement passes of
`insertSorted` consume, for the batch indices of `newIdx`. -/
def newPairs (l values : List Int) (i : Nat) : List (Int × Nat) :=
  (newIdx l values i).map fun j =>
    (values.getD j 0, lowerB l (values.getD j 0))

/-- Abstract form of the placement passes of `insertSorted`: consuming
`(value, position)` pairs in descending value order, each step splits off
the slice `[p, prevPos)` of the array and prepends the new value to the
accumulated tail.  The concrete passes compute exactly this (see the
phase-one and phase-two lemmas). -/
def placeAbs (l : List Int) : List (Int × Nat) → Nat → List Int → List Int
  | [], prevPos, tail => l.take prevPos ++ tail
  | (v, p) :: rest, prevPos, tail =>
    placeAbs l rest p (v :: (l.take prevPos).drop p ++ tail)

/-- The running state of the abstract placement: the accumulated tail and
the current `prevPos`.  `placeAbs` is `l.take prevPos ++ tail` of the
final state (see `placeAbs_eq_steps`). -/
def placeSteps (l : List Int) : List (Int × Nat) → Nat → List Int → List Int × Nat
  | [], prevPos, tail => (tail, prevPos)
  | (v, p) :: rest, prevPos, tail =>
    placeSteps l rest p (v :: (l.take prevPos).drop p ++ tail)

/-- The batch indices ≤ `i` still to be placed while phase two of
`insertSorted` runs with last consumed value `b`: the first-occurrence
indices of genuinely new values strictly below `b`. -/
def remIdx (l values : List Int) (i : Nat) (b : Int) : List Nat :=
  (newIdx l values i).filter fun j => decide (values.getD j 0 < b)

end sortedArrayManipulation

namespace LvArray

/-- The state of an `ArrayOfArraysView` / owning `ArrayOfArrays`
(ArrayOfArraysView.hpp lines 822-834): the number of sub-arrays, the
offsets sequence of length `numArrays + 1`, the live sizes of length
`numArrays`, and the flat value buffer, modelled as a total function on
buffer positions (positions outside the live regions hold unspecified
junk that is never read by a well-formed client). -/
structure ArrayOfArrays where
  numArrays : Nat
  offsets : List Int
  sizes : List Int
  values : Int → Int

/-- The default-constructed, unpopulated container
(ArrayOfArraysView.hpp lines 485-490). -/
def empty : ArrayOfArrays :=
  { numArrays := 0, offsets := [], sizes := [], values := fun _ => 0 }

/-- `ArrayOfArraysView::sizeOfArray` (ArrayOfArraysView.hpp lines 289-294). -/
def sizeOfArray (a : ArrayOfArrays) (i : Nat) : Int :=
  a.sizes.getD i 0

/-- `ArrayOfArraysView::capacityOfArray` (ArrayOfArraysView.hpp lines
300-305): `m_offsets[i+1] - m_offsets[i]`. -/
def capacityOfArray (a : ArrayOfArrays) (i : Nat) : Int :=
  a.offsets.getD (i + 1) 0 - a.offsets.getD i 0

/-- The live contents of sub-array `i` in order, as exposed by
`ArrayOfArraysView::operator[]` (ArrayOfArraysView.hpp lines 311-316): the
slice of `sizeOfArray i` values starting at buffer position
`m_offsets[i]`. -/
def subArray (a : ArrayOfArrays) (i : Nat) : List Int :=
  (List.range (sizeOfArray a i).toNat).map fun (j : Nat) =>
    a.values (a.offsets.getD i 0 + (j : Int))

/-- The total number of live elements across all sub-arrays. -/
def totalLive (a : ArrayOfArrays) : Nat :=
  ((List.range a.numArrays).map fun i => (sizeOfArray a i).toNat).sum

/-- `ArrayOfArraysView::emplaceBack` (ArrayOfArraysView.hpp lines 338-348):
construct the new element at in-array position `sizeOfArray i` — buffer
position `m_offsets[i] + sizeOfArray(i)` (the `arrayManipulation::emplaceBack`
primitive, modelled from the spec §4.1: constructs a new element at
`ptr[size]`) — and increment `m_sizes[i]`. -/
def emplaceBack (a : ArrayOfArrays) (i : Nat) (v : Int) : ArrayOfArrays :=
  { a with
      values := fun q =>
        if q = a.offsets.getD i 0 + a.sizes.getD i 0 then v else a.values q,
      sizes := a.sizes.set i (a.sizes.getD i 0 + 1) }

/-- `ArrayOfArraysView::appendToArray` (ArrayOfArraysView.hpp lines
383-391): write the `n` appended values at buffer positions
`m_offsets[i] + sizeOfArray(i) + k` (the `arrayManipulation::append`
primitive, modelled from the spec §4.1) and add `n` to `m_sizes[i]`. -/
def appendToArray (a : ArrayOfArrays) (i : Nat) (vs : List Int) : ArrayOfArrays :=
  { a with
      values := fun q =>
        if a.offsets.getD i 0 + a.sizes.getD i 0 ≤ q ∧
            q < a.offsets.getD i 0 + a.sizes.getD i 0 + vs.length then
          vs.getD (q - (a.offsets.getD i 0 + a.sizes.getD i 0)).toNat 0
        else a.values q,
      sizes := a.sizes.set i (a.sizes.getD i 0 + vs.length) }

/-- `ArrayOfArraysView::emplace` (ArrayOfArraysView.hpp lines 402-412):
shift the elements `[j, sizeOfArray i)` of sub-array `i` up one slot
(the `arrayManipulation::emplace` primitive, modelled from the spec §4.1),
write the new value at in-array position `j`, and increment `m_sizes[i]`. -/
def emplace (a : ArrayOfArrays) (i : Nat) (j : Int) (v : Int) : ArrayOfArrays :=
  { a with
      values := fun q =>
        if q = a.offsets.getD i 0 + j then v
        else if a.offsets.getD i 0 + j < q ∧
            q ≤ a.offsets.getD i 0 + a.sizes.getD i 0 then a.values (q - 1)
        else a.values q,
      sizes := a.sizes.set i (a.sizes.getD i 0 + 1) }

/-- `ArrayOfArraysView::insertIntoArray` (ArrayOfArraysView.hpp lines
426-438): shift the elements `[j, sizeOfArray i)` up `n` slots, write the
`n` new values at in-array positions `[j, j+n)` (the
`arrayManipulation::insert` bulk primitive, modelled from the spec §4.1),
and add `n` to `m_sizes[i]`. -/
def insertIntoArray (a : ArrayOfArrays) (i : Nat) (j : Int) (vs : List Int) :
    ArrayOfArrays :=
  { a with
      values := fun q =>
        if a.offsets.getD i 0 + j ≤ q ∧
            q < a.offsets.getD i 0 + j + vs.length then
          vs.getD (q - (a.offsets.getD i 0 + j)).toNat 0
        else if a.offsets.getD i 0 + j + vs.length ≤ q ∧
            q < a.offsets.getD i 0 + a.sizes.getD i 0 + vs.length then
          a.values (q - vs.length)
        else a.values q,
      sizes := a.sizes.set i (a.sizes.getD i 0 + vs.length) }

/-- `ArrayOfArraysView::eraseFromArray` (ArrayOfArraysView.hpp lines
446-454): destroy the `n` elements of sub-array `i` starting at in-array
position `j` and shift `[j+n, sizeOfArray i)` down `n` slots (the
`arrayManipulation::erase` primitive, modelled from the spec §4.1), then
subtract `n` from `m_sizes[i]`. -/
def eraseFromArray (a : ArrayOfArrays) (i : Nat) (j : Int) (n : Int) :
    ArrayOfArrays :=
  { a with
      values := fun q =>
        if a.offsets.getD i 0 + j ≤ q ∧
            q < a.offsets.getD i 0 + a.sizes.getD i 0 - n then a.values (q + n)
        else a.values q,
      sizes := a.sizes.set i (a.sizes.getD i 0 - n) }

/-- `ArrayOfArraysView::resize` (ArrayOfArraysView.hpp lines 509-547).
When shrinking, the removed sub-arrays' elements are destroyed and the
offsets and sizes buffers are truncated; when growing, the offsets buffer
is extended (arithmetically when `defaultArrayCapacity > 0`, flat
otherwise) and the new sizes are zero.  `bufferManipulation::resize` is
modelled from the spec (§6: `resize(buffer, oldSize, newSize,
defaultValue)` keeps the first `oldSize` entries and fills new entries
with the default). -/
def resizeGrowOffsets (a : ArrayOfArrays) (newSize : Nat)
    (defaultArrayCapacity : Int) : List Int :=
  let offsetsSize := if a.numArrays = 0 then 0 else a.numArrays + 1
  let originalOffset := if a.numArrays = 0 then 0 else a.offsets.getD a.numArrays 0
  let offsets1 := a.offsets.take offsetsSize ++
    List.replicate (newSize + 1 - offsetsSize) originalOffset
  if 0 < defaultArrayCapacity then
    (List.range (newSize + 1)).map fun t =>
      if a.numArrays + 1 ≤ t then
        originalOffset + ((t - a.numArrays : Nat) : Int) * defaultArrayCapacity
      else offsets1.getD t 0
  else offsets1

def resize (a : ArrayOfArrays) (newSize : Nat) (defaultArrayCapacity : Int) :
    ArrayOfArrays :=
  if newSize < a.numArrays then
    { numArrays := newSize,
      offsets := a.offsets.take (newSize + 1),
      sizes := a.sizes.take newSize,
      values := a.values }
  else
    { numArrays := newSize,
      offsets := resizeGrowOffsets a newSize defaultArrayCapacity,
      sizes := a.sizes.take a.numArrays ++ List.replicate (newSize - a.numArrays) 0,
      values := a.values }

/-- `ArrayOfArraysView::resizeFromCapacities` (ArrayOfArraysView.hpp lines
559-596): destroy everything, zero the `numSubArrays` sizes, and rebuild
the offsets as `m_offsets[0] = 0` followed by the inclusive prefix sum of
the capacities. -/
def resizeFromCapacities (a : ArrayOfArrays) (numSubArrays : Nat)
    (capacities : List Int) : ArrayOfArrays :=
  { numArrays := numSubArrays,
    offsets := (capacities.take numSubArrays).scanl (· + ·) 0,
    sizes := List.replicate numSubArrays 0,
    values := a.values }

/-- One iteration of the loop of `ArrayOfArraysView::compress`
(ArrayOfArraysView.hpp lines 681-698): shift the live elements of
sub-array `i+1` down to close the slack after sub-array `i` (the
`arrayManipulation::uninitializedShiftDown` primitive, modelled from the
spec §4.1) and lower `m_offsets[i+1]` accordingly. -/
def compressStep (st : ArrayOfArrays) (i : Nat) : ArrayOfArrays :=
  let nextOffset := st.offsets.getD (i + 1) 0
  let shiftAmount := nextOffset - st.offsets.getD i 0 - st.sizes.getD i 0
  let sizeOfNextArray := st.sizes.getD (i + 1) 0
  { st with
      values := fun q =>
        if nextOffset - shiftAmount ≤ q ∧
            q < nextOffset - shiftAmount + sizeOfNextArray then
          st.values (q + shiftAmount)
        else st.values q,
      offsets := st.offsets.set (i + 1) (nextOffset - shiftAmount) }

/-- The loop of `ArrayOfArraysView::compress`, running `steps` iterations
starting at sub-array `i`. -/
def compressGo : ArrayOfArrays → Nat → Nat → ArrayOfArrays
  | st, _, 0 => st
  | st, i, steps + 1 => compressGo (compressStep st i) (i + 1) steps

/-- `ArrayOfArraysView::compress` (ArrayOfArraysView.hpp lines 677-702):
close the gap after each of the first `numArrays - 1` sub-arrays, then set
the final offset to the end of the last sub-array's live run. -/
def compress (a : ArrayOfArrays) : ArrayOfArrays :=
  if a.numArrays = 0 then a
  else
    let st := compressGo a 0 (a.numArrays - 1)
    { st with
        offsets := st.offsets.set a.numArrays
          (st.offsets.getD (a.numArrays - 1) 0 +
            st.sizes.getD (a.numArrays - 1) 0) }

/-- The grow loop of `ArrayOfArraysView::setCapacityOfArray`
(ArrayOfArraysView.hpp lines 759-765): shift the live runs of sub-arrays
`> i` up by the capacity increase, from the last sub-array down (`cnt`
iterations starting at sub-array `t`, descending).  Each single-region
relocation is `arrayManipulation::uninitializedShiftUp`, modelled from the
spec §4.1. -/
def growShiftGo (offsets sizes : List Int) (inc : Int) :
    Nat → Nat → (Int → Int) → Int → Int
  | 0, _, vals => vals
  | cnt + 1, t, vals =>
    growShiftGo offsets sizes inc cnt (t - 1) fun q =>
      if offsets.getD t 0 + inc ≤ q ∧
          q < offsets.getD t 0 + inc + sizes.getD t 0 then vals (q - inc)
      else vals q

/-- The shrink loop of `ArrayOfArraysView::setCapacityOfArray`
(ArrayOfArraysView.hpp lines 785-791): shift the live runs of sub-arrays
`> i` down by the capacity decrease, from sub-array `i+1` up (`cnt`
iterations starting at sub-array `t`, ascending).  Each single-region
relocation is `arrayManipulation::uninitializedShiftDown`, modelled from
the spec §4.1. -/
def shrinkShiftGo (offsets sizes : List Int) (dec : Int) :
    Nat → Nat → (Int → Int) → Int → Int
  | 0, _, vals => vals
  | cnt + 1, t, vals =>
    shrinkShiftGo offsets sizes dec cnt (t + 1) fun q =>
      if offsets.getD t 0 - dec ≤ q ∧
          q < offsets.getD t 0 - dec + sizes.getD t 0 then vals (q + dec)
      else vals q

/-- `ArrayOfArraysView::setCapacityOfArray` (ArrayOfArraysView.hpp lines
741-807): grow (shift all later sub-arrays' live data up, using the old
offsets) or shrink (clamp `m_sizes[i]`, destroy the clipped tail, shift
later sub-arrays' live data down), then add the capacity change to every
offset past `i`. -/
def setCapacityOfArray (a : ArrayOfArrays) (i : Nat) (newCapacity : Int) :
    ArrayOfArrays :=
  let capacityIncrease := newCapacity - capacityOfArray a i
  if capacityIncrease = 0 then a
  else
    let offsets2 := (List.range (a.numArrays + 1)).map fun t =>
      if i + 1 ≤ t then a.offsets.getD t 0 + capacityIncrease
      else a.offsets.getD t 0
    if 0 < capacityIncrease then
      { numArrays := a.numArrays, offsets := offsets2, sizes := a.sizes,
        values := growShiftGo a.offsets a.sizes capacityIncrease
          (a.numArrays - 1 - i) (a.numArrays - 1) a.values }
    else
      { numArrays := a.numArrays, offsets := offsets2,
        sizes := a.sizes.set i (min (a.sizes.getD i 0) newCapacity),
        values := shrinkShiftGo a.offsets a.sizes (-capacityIncrease)
          (a.numArrays - (i + 1)) (i + 1) a.values }

/-- The mutating public operations of the ArrayOfArrays container named by
the capacity-invariant claim. -/
inductive AoAOp where
  | emplaceBack (i : Nat) (v : Int)
  | appendToArray (i : Nat) (vs : List Int)
  | emplace (i : Nat) (j : Int) (v : Int)
  | insertIntoArray (i : Nat) (j : Int) (vs : List Int)
  | eraseFromArray (i : Nat) (j : Int) (n : Int)
  | resize (newSize : Nat) (defaultArrayCapacity : Int)
  | resizeFromCapacities (numSubArrays : Nat) (capacities : List Int)
  | compress
  | setCapacityOfArray (i : Nat) (newCapacity : Int)

/-- Dispatch of an operation to its implementation. -/
def applyOp (a : ArrayOfArrays) : AoAOp → ArrayOfArrays
  | .emplaceBack i v => emplaceBack a i v
  | .appendToArray i vs => appendToArray a i vs
  | .emplace i j v => emplace a i j v
  | .insertIntoArray i j vs => insertIntoArray a i j vs
  | .eraseFromArray i j n => eraseFromArray a i j n
  | .resize newSize cap => resize a newSize cap
  | .resizeFromCapacities n caps => resizeFromCapacities a n caps
  | .compress => compress a
  | .setCapacityOfArray i newCap => setCapacityOfArray a i newCap

/-- The precondition of each operation: exactly what the bounds, insert
and capacity checks of ArrayOfArraysView.hpp (lines 44-104) and the
non-negativity asserts of the primitives (spec §4.1) demand. -/
def opPre (a : ArrayOfArrays) : AoAOp → Prop
  | .emplaceBack i _ => i < a.numArrays ∧
      sizeOfArray a i + 1 ≤ capacityOfArray a i
  | .appendToArray i vs => i < a.numArrays ∧
      sizeOfArray a i + vs.length ≤ capacityOfArray a i
  | .emplace i j _ => i < a.numArrays ∧ 0 ≤ j ∧ j ≤ sizeOfArray a i ∧
      sizeOfArray a i + 1 ≤ capacityOfArray a i
  | .insertIntoArray i j vs => i < a.numArrays ∧ 0 ≤ j ∧
      j ≤ sizeOfArray a i ∧
      sizeOfArray a i + vs.length ≤ capacityOfArray a i
  | .eraseFromArray i j n => i < a.numArrays ∧ 0 ≤ j ∧ 0 ≤ n ∧
      j + n ≤ sizeOfArray a i
  | .resize _ _ => True
  | .resizeFromCapacities n caps => n ≤ caps.length ∧
      ∀ c ∈ caps.take n, 0 ≤ c
  | .compress => True
  | .setCapacityOfArray i newCap => i < a.numArrays ∧ 0 ≤ newCap

/-- Structural well-formedness plus the capacity invariant of the data
model (spec §3, ArrayOfArraysView.hpp lines 825-834): the offsets
sequence has length `numArrays + 1`, the sizes sequence has length
`numArrays`, and every sub-array's size lies between 0 and its
capacity. -/
def Inv (a : ArrayOfArrays) : Prop :=
  a.offsets.length = a.numArrays + 1 ∧ a.sizes.length = a.numArrays ∧
  ∀ i, i < a.numArrays →
    0 ≤ sizeOfArray a i ∧ sizeOfArray a i ≤ capacityOfArray a i

/-- Monotone offsets (spec §3: `offsets` strictly non-decreasing); needed
by the frame claims, where disjointness of sub-array regions matters. -/
def OffsetsMono (a : ArrayOfArrays) : Prop :=
  ∀ u, u ≤ a.numArrays → ∀ t, t ≤ u →
    a.offsets.getD t 0 ≤ a.offsets.getD u 0

end LvArray

namespace sortedArrayManipulation

theorem Sorted.getD_mono {l : List Int} (h : l.Sorted (· ≤ ·)) {i j : Nat}
    (hij : i ≤ j) (hj : j < l.length) : l.getD i 0 ≤ l.getD j 0 := by
  rcases Nat.eq_or_lt_of_le hij with rfl | hlt
  · exact le_refl _
  · have hi : i < l.length := lt_trans hlt hj
    rw [l.getD_eq_getElem 0 hi, l.getD_eq_getElem 0 hj]
    exact List.pairwise_iff_getElem.mp h i j hi hj hlt

/-- If entries below `r` are `< value` and entries from `r` on are not,
then `r` is the lower bound. -/
theorem lowerB_eq_of_pivot {l : List Int} {value : Int} {r : Nat}
    (hr : r ≤ l.length)
    (hlo : ∀ k, k < r → l.getD k 0 < value)
    (hhi : ∀ k, r ≤ k → k < l.length → ¬ l.getD k 0 < value) :
    lowerB l value = r := by
  unfold lowerB
  rw [← List.take_append_drop r l, List.countP_append]
  have h1 : (l.take r).countP (fun x => decide (x < value)) = r := by
    rw [List.countP_eq_length.mpr, List.length_take, Nat.min_eq_left hr]
    intro a ha
    rcases List.mem_take_iff_getElem.mp ha with ⟨k, hk, rfl⟩
    have hkr : k < r := lt_of_lt_of_le hk inf_le_left
    have hkl : k < l.length := lt_of_lt_of_le hk inf_le_right
    simp only [decide_eq_true_eq]
    have := hlo k hkr
    rwa [l.getD_eq_getElem 0 hkl] at this
  have h2 : (l.drop r).countP (fun x => decide (x < value)) = 0 := by
    rw [List.countP_eq_zero]
    intro a ha
    rcases List.mem_iff_getElem.mp ha with ⟨k, hk, rfl⟩
    rw [List.getElem_drop]
    simp only [decide_eq_true_eq]
    have hkl : r + k < l.length := by
      have := hk; rw [List.length_drop] at this; omega
    have := hhi (r + k) (Nat.le_add_right r k) hkl
    rwa [l.getD_eq_getElem 0 hkl] at this
  omega

theorem findLoop_spec {l : List Int} (hs : l.Sorted (· ≤ ·)) (value : Int) :
    ∀ fuel lower upper, upper ≤ l.length → lower ≤ upper →
    upper - lower ≤ fuel →
    (∀ k, k < lower → l.getD k 0 < value) →
    (∀ k, upper ≤ k → k < l.length → ¬ l.getD k 0 < value) →
    findLoop l value fuel lower upper = lowerB l value := by
  intro fuel
  induction fuel with
  | zero =>
    intro lower upper hul hlu hf hlo hhi
    have : lower = upper := by omega
    subst this
    exact (lowerB_eq_of_pivot hul hlo hhi).symm ▸ rfl
  | succ n ih =>
    intro lower upper hul hlu hf hlo hhi
    unfold findLoop
    by_cases heq : lower = upper
    · simp only [heq, if_pos rfl]
      exact (lowerB_eq_of_pivot (heq ▸ hul) (heq ▸ hlo) hhi).symm
    · simp only [if_neg heq]
      have hlt : lower < upper := lt_of_le_of_ne hlu heq
      have hg1 : lower ≤ (lower + upper) / 2 := by omega
      have hg2 : (lower + upper) / 2 < upper := by omega
      by_cases hcmp : l.getD ((lower + upper) / 2) 0 < value
      · simp only [if_pos hcmp]
        apply ih ((lower + upper) / 2 + 1) upper hul (by omega) (by omega)
        · intro k hk
          have hkle : k ≤ (lower + upper) / 2 := by omega
          exact lt_of_le_of_lt
            (Sorted.getD_mono hs hkle (lt_of_lt_of_le hg2 hul)) hcmp
        · exact hhi
      · simp only [if_neg hcmp]
        apply ih lower ((lower + upper) / 2)
          (le_trans (le_of_lt hg2) hul) (by omega) (by omega) hlo
        · intro k hk hkl
          intro habs
          exact hcmp (lt_of_le_of_lt (Sorted.getD_mono hs hk hkl) habs)

/-- For a sorted array `find` computes the lower bound, the count of
entries smaller than the value (`std::lower_bound` semantics). -/
theorem find_eq_lowerB {l : List Int} (hs : l.Sorted (· ≤ ·)) (value : Int) :
    find l value = lowerB l value :=
  findLoop_spec hs value (l.length + 1) 0 l.length (le_refl _)
    (Nat.zero_le _) (by omega) (fun k hk => absurd hk (Nat.not_lt_zero k))
    (fun k hk hkl => absurd hkl (not_lt_of_le hk))

theorem lowerB_le_length (l : List Int) (value : Int) :
    lowerB l value ≤ l.length :=
  List.countP_le_length _

theorem lowerB_lt_iff {l : List Int} (hs : l.Sorted (· ≤ ·)) (value : Int)
    {k : Nat} (hk : k < l.length) :
    l.getD k 0 < value ↔ k < lowerB l value := by
  constructor
  · intro h
    by_contra habs
    push_neg at habs
    have hmono := Sorted.getD_mono hs habs hk
    have : lowerB l value < l.length := lt_of_le_of_lt habs hk
    -- entries at or above the lower bound are ≥ value
    have hcount : ¬ l.getD (lowerB l value) 0 < value := by
      intro hlt
      -- if the entry at position lowerB were < value, the count of entries
      -- < value would exceed lowerB
      have : lowerB l value + 1 ≤ lowerB l value := by
        have hpivot : ∀ k, k < lowerB l value + 1 → l.getD k 0 < value := by
          intro j hj
          rcases Nat.lt_succ_iff_lt_or_eq.mp hj with hj' | rfl
          · exact lt_of_le_of_lt
              (Sorted.getD_mono hs (le_of_lt hj') this) hlt
          · exact hlt
        calc lowerB l value + 1
            = (l.take (lowerB l value + 1)).countP (fun x => decide (x < value)) := by
              rw [List.countP_eq_length.mpr, List.length_take,
                Nat.min_eq_left (by omega)]
              intro a ha
              rcases List.mem_take_iff_getElem.mp ha with ⟨j, hj, rfl⟩
              simp only [decide_eq_true_eq]
              have hjl : j < l.length := lt_of_lt_of_le hj inf_le_right
              have := hpivot j (lt_of_lt_of_le hj inf_le_left)
              rwa [l.getD_eq_getElem 0 hjl] at this
          _ ≤ l.countP (fun x => decide (x < value)) := by
              conv_rhs => rw [← List.take_append_drop (lowerB l value + 1) l]
              rw [List.countP_append]
              omega
          _ = lowerB l value := rfl
      omega
    exact hcount (lt_of_le_of_lt hmono h)
  · intro h
    by_contra habs
    have hhi : ∀ j, k ≤ j → j < l.length → ¬ l.getD j 0 < value := by
      intro j hj hjl habs2
      exact habs (lt_of_le_of_lt (Sorted.getD_mono hs hj hjl) habs2)
    have : lowerB l value ≤ k := by
      have : lowerB l value = (l.take k).countP (fun x => decide (x < value)) := by
        unfold lowerB
        conv_lhs => rw [← List.take_append_drop k l]
        rw [List.countP_append]
        have : (l.drop k).countP (fun x => decide (x < value)) = 0 := by
          rw [List.countP_eq_zero]
          intro a ha
          rcases List.mem_iff_getElem.mp ha with ⟨j, hj, rfl⟩
          rw [List.getElem_drop]
          simp only [decide_eq_true_eq]
          have hjl : k + j < l.length := by
            have := hj; rw [List.length_drop] at this; omega
          have := hhi (k + j) (Nat.le_add_right _ _) hjl
          rwa [l.getD_eq_getElem 0 hjl] at this
        omega
      calc lowerB l value = (l.take k).countP (fun x => decide (x < value)) := this
        _ ≤ (l.take k).length := List.countP_le_length _
        _ ≤ k := by rw [List.length_take]; omega
    omega

/-- Membership in a sorted list is equivalent to the entry at the lower
bound being the value. -/
theorem mem_iff_lowerB {l : List Int} (hs : l.Sorted (· ≤ ·)) (value : Int) :
    value ∈ l ↔ lowerB l value < l.length ∧ l.getD (lowerB l value) 0 = value := by
  constructor
  · intro hmem
    rcases List.mem_iff_getElem.mp hmem with ⟨k, hk, rfl⟩
    have hnotlt : ¬ l[k] < l[k] := lt_irrefl _
    have hklb : lowerB l l[k] ≤ k := by
      by_contra habs
      push_neg at habs
      have := (lowerB_lt_iff hs l[k] hk).mpr habs
      rw [l.getD_eq_getElem 0 hk] at this
      exact hnotlt this
    have hlb_lt : lowerB l l[k] < l.length := lt_of_le_of_lt hklb hk
    refine ⟨hlb_lt, ?_⟩
    have h1 : ¬ l.getD (lowerB l l[k]) 0 < l[k] := by
      intro habs
      have := (lowerB_lt_iff hs l[k] hlb_lt).mp habs
      omega
    have h2 : l.getD (lowerB l l[k]) 0 ≤ l.getD k 0 :=
      Sorted.getD_mono hs hklb hk
    rw [l.getD_eq_getElem 0 hk] at h2
    omega
  · intro ⟨hlt, heq⟩
    rw [← heq, l.getD_eq_getElem 0 hlt]
    exact List.getElem_mem hlt

theorem lowerB_cons_of_lt {b : Int} {t : List Int} {v : Int} (hb : b < v) :
    lowerB (b :: t) v = lowerB t v + 1 := by
  unfold lowerB
  rw [List.countP_cons]
  simp [hb]

theorem lowerB_eq_zero_of_le {b : Int} {t : List Int} {v : Int}
    (hs : (b :: t).Sorted (· ≤ ·)) (hvb : v ≤ b) :
    lowerB (b :: t) v = 0 := by
  unfold lowerB
  rw [List.countP_eq_zero]
  intro a ha
  simp only [decide_eq_true_eq, not_lt]
  rcases List.mem_cons.mp ha with rfl | hat
  · exact hvb
  · exact le_trans hvb (List.rel_of_sorted_cons hs a hat)

theorem insertAt_lowerB_eq_orderedInsert {l : List Int}
    (hs : l.Sorted (· ≤ ·)) (v : Int) :
    arrayManipulation.insertAt l (lowerB l v) v =
      List.orderedInsert (· ≤ ·) v l := by
  induction l with
  | nil => rfl
  | cons b t ih =>
    by_cases hb : b < v
    · rw [lowerB_cons_of_lt hb]
      show List.insertIdx (lowerB t v + 1) v (b :: t) = _
      rw [List.insertIdx_succ_cons, List.orderedInsert,
        if_neg (not_le.mpr hb)]
      exact congrArg (b :: ·) (ih hs.of_cons)
    · rw [lowerB_eq_zero_of_le hs (not_lt.mp hb)]
      show List.insertIdx 0 v (b :: t) = _
      rw [List.insertIdx_zero, List.orderedInsert, if_pos (not_lt.mp hb)]

theorem sorted_insertAt_lowerB {l : List Int} (hs : l.Sorted (· ≤ ·))
    (v : Int) :
    (arrayManipulation.insertAt l (lowerB l v) v).Sorted (· ≤ ·) := by
  rw [insertAt_lowerB_eq_orderedInsert hs v]
  exact List.Sorted.orderedInsert v l hs

/-- For a sorted array the insertion point computed by `insert`'s fast
paths and binary search is the lower bound. -/
theorem insertPosOf_eq_lowerB {l : List Int} (hs : l.Sorted (· ≤ ·))
    (v : Int) : insertPosOf l v = lowerB l v := by
  unfold insertPosOf
  by_cases h1 : l.length = 0 ∨ v < l.getD 0 0
  · rw [if_pos h1]
    rcases h1 with h0 | hv
    · rw [List.length_eq_zero] at h0
      subst h0; rfl
    · symm
      unfold lowerB
      rw [List.countP_eq_zero]
      intro a ha
      simp only [decide_eq_true_eq, not_lt]
      rcases List.mem_iff_getElem.mp ha with ⟨k, hk, rfl⟩
      have h0k : l.getD 0 0 ≤ l.getD k 0 :=
        Sorted.getD_mono hs (Nat.zero_le k) hk
      rw [l.getD_eq_getElem 0 hk] at h0k
      exact le_trans (le_of_lt hv) h0k
  · rw [if_neg h1]
    push_neg at h1
    obtain ⟨hne, hge⟩ := h1
    by_cases h2 : l.getD (l.length - 1) 0 < v
    · rw [if_pos h2]
      symm
      unfold lowerB
      rw [List.countP_eq_length]
      intro a ha
      simp only [decide_eq_true_eq]
      rcases List.mem_iff_getElem.mp ha with ⟨k, hk, rfl⟩
      have hk1 : l.getD k 0 ≤ l.getD (l.length - 1) 0 :=
        Sorted.getD_mono hs (by omega) (by omega)
      rw [l.getD_eq_getElem 0 hk] at hk1
      exact lt_of_le_of_lt hk1 h2
    · rw [if_neg h2]
      exact find_eq_lowerB hs v

theorem getD_mem {l : List Int} {pos : Nat} (h : pos < l.length) :
    l.getD pos 0 ∈ l := by
  rw [l.getD_eq_getElem 0 h]
  exact List.getElem_mem h

/-- If no batch value occurs in the array, the initial scan of
`removeSorted` never finds a value to remove. -/
theorem removeFirstScan_eq_none {l : List Int} :
    ∀ (values : List Int), (∀ v ∈ values, v ∉ l) →
    ∀ i, removeFirstScan l values i = none := by
  intro values
  induction values with
  | nil => intro _ _; rfl
  | cons v rest ih =>
    intro habs i
    unfold removeFirstScan
    by_cases hend : find l v = l.length
    · rw [if_pos hend]
    · rw [if_neg hend]
      have hlt : find l v < l.length :=
        lt_of_le_of_ne (by
          -- the loop of find never leaves the initial bracket [0, size)
          have : ∀ fuel lower upper, upper ≤ l.length → lower ≤ upper →
              findLoop l v fuel lower upper ≤ l.length := by
            intro fuel
            induction fuel with
            | zero => intro lower upper hu hl; exact le_trans hl hu
            | succ n ihf =>
              intro lower upper hu hl
              unfold findLoop
              by_cases he : lower = upper
              · rw [if_pos he]; exact le_trans hl hu
              · rw [if_neg he]
                have hlt' : lower < upper := lt_of_le_of_ne hl he
                by_cases hc : l.getD ((lower + upper) / 2) 0 < v
                · rw [if_pos hc]; exact ihf _ _ hu (by omega)
                · rw [if_neg hc]
                  exact ihf _ _ (le_trans (by omega) hu) (by omega)
          exact this _ _ _ (le_refl _) (Nat.zero_le _)) hend
      have hne : ¬ l.getD (find l v) 0 = v := by
        intro heq
        exact habs v (List.mem_cons_self v rest) (heq ▸ getD_mem hlt)
      rw [if_neg hne]
      exact ih (fun w hw => habs w (List.mem_cons_of_mem v hw)) (i + 1)

end sortedArrayManipulation

/-- C5: for every sorted array and every value, single-value
`sortedArrayManipulation::insert` behaves as follows: if the value is
already present it calls `callbacks.incrementSize(0)`, returns false, and
leaves the array contents and size unchanged; otherwise it calls
`callbacks.incrementSize(1)` exactly once, inserts the value at its
lower-bound position (keeping the array sorted), calls `callbacks.insert`
with that position, and returns true. -/
theorem C5_insert_single (l : List Int) (v : Int) (hs : l.Sorted (· ≤ ·)) :
    (v ∈ l → sortedArrayManipulation.insert l v =
      { inserted := false, arr := l, incrementSizeCalls := [0],
        insertCalls := [] }) ∧
    (v ∉ l → sortedArrayManipulation.insert l v =
      { inserted := true,
        arr := arrayManipulation.insertAt l
          (sortedArrayManipulation.lowerB l v) v,
        incrementSizeCalls := [1],
        insertCalls := [sortedArrayManipulation.lowerB l v] } ∧
      (arrayManipulation.insertAt l
        (sortedArrayManipulation.lowerB l v) v).Sorted (· ≤ ·)) := by
  constructor
  · intro hmem
    have hm := (sortedArrayManipulation.mem_iff_lowerB hs v).mp hmem
    unfold sortedArrayManipulation.insert
    rw [sortedArrayManipulation.insertPosOf_eq_lowerB hs v,
      if_pos ⟨by omega, hm.2⟩]
  · intro hmem
    have hcond : ¬ (sortedArrayManipulation.lowerB l v ≠ l.length ∧
        l.getD (sortedArrayManipulation.lowerB l v) 0 = v) := by
      rintro ⟨hne, heq⟩
      exact hmem ((sortedArrayManipulation.mem_iff_lowerB hs v).mpr
        ⟨lt_of_le_of_ne (sortedArrayManipulation.lowerB_le_length l v) hne,
          heq⟩)
    refine ⟨?_, sortedArrayManipulation.sorted_insertAt_lowerB hs v⟩
    unfold sortedArrayManipulation.insert
    rw [sortedArrayManipulation.insertPosOf_eq_lowerB hs v, if_neg hcond]

theorem C5_insert_single_witness :
    sortedArrayManipulation.insert [2, 4, 6] 4 =
      { inserted := false, arr := [2, 4, 6], incrementSizeCalls := [0],
        insertCalls := [] } ∧
    sortedArrayManipulation.insert [2, 4, 6] 5 =
      { inserted := true, arr := [2, 4, 5, 6], incrementSizeCalls := [1],
        insertCalls := [2] } := by
  constructor
  · exact (C5_insert_single [2, 4, 6] 4 (by decide)).1 (by decide)
  · exact ((C5_insert_single [2, 4, 6] 5 (by decide)).2
      (by decide)).1.trans (by decide)

/-- C7: for the sorted array {1,3,5,7,9}, `remove` with the batch {3,7}
returns 2 and leaves exactly {1,5,9}. -/
theorem C7_remove_scenario :
    sortedArrayManipulation.remove [1, 3, 5, 7, 9] [3, 7] = (2, [1, 5, 9]) := by
  decide

/-- C2 is false as stated: with the sorted array `[1, 2]` and the sorted
batch `[1, 5]`, the batch value 5 is larger than every array element and
the earlier, smaller batch value 1 is present, yet `removeSorted` returns
1 (not 0) and removes the element 1. -/
theorem C2_counterexample :
    ((1 : Int) ∈ [(1 : Int), 2] ∧ (∀ x ∈ [(1 : Int), 2], x < 5)) ∧
    sortedArrayManipulation.removeSorted [1, 2] [1, 5] = (1, [2]) := by
  decide

/-- C2 (amended): for every call `removeSorted(ptr, size, values, nVals,
callbacks)` in which some value in the batch is larger than all elements of
the array and no batch value is present in the array, `removeSorted`
returns 0 for the whole batch, and no element is removed.  (As originally
stated — with earlier, smaller batch values present in the array — the
claim is refuted by `C2_counterexample`: the initial scan stops at the
first present value and removal proceeds.) -/
theorem C2_removeSorted_early_exit (l values : List Int)
    (hvs : values.Sorted (· ≤ ·))
    (habs : ∀ v ∈ values, v ∉ l)
    (hbig : ∃ v ∈ values, ∀ x ∈ l, x < v) :
    sortedArrayManipulation.removeSorted l values = (0, l) := by
  unfold sortedArrayManipulation.removeSorted
  by_cases h0 : values.length = 0
  · rw [if_pos h0]
  · rw [if_neg h0, sortedArrayManipulation.removeFirstScan_eq_none values habs 0]

theorem C2_removeSorted_early_exit_witness :
    sortedArrayManipulation.removeSorted [10] [20] = (0, [10]) :=
  C2_removeSorted_early_exit [10] [20] (by decide) (by decide)
    ⟨20, by decide, by decide⟩

/-- C6: starting from an empty ArrayOfArrays, the sequence
`resizeFromCapacities(3, [2,0,3])`; `emplaceBack(0,10)`; `emplaceBack(0,20)`;
`emplaceBack(2,1)`; `emplaceBack(2,2)` yields `sizeOfArray(0)==2`,
`sizeOfArray(1)==0`, `sizeOfArray(2)==2` and `operator[](0) == {10,20}`; a
subsequent `eraseFromArray(0,0,1)` yields `operator[](0) == {20}` with
`sizeOfArray(0)==1`. -/
theorem C6_round_trip :
    (let s := LvArray.emplaceBack (LvArray.emplaceBack (LvArray.emplaceBack
      (LvArray.emplaceBack
        (LvArray.resizeFromCapacities LvArray.empty 3 [2, 0, 3]) 0 10)
      0 20) 2 1) 2 2
     LvArray.sizeOfArray s 0 = 2 ∧ LvArray.sizeOfArray s 1 = 0 ∧
     LvArray.sizeOfArray s 2 = 2 ∧ LvArray.subArray s 0 = [10, 20] ∧
     LvArray.subArray (LvArray.eraseFromArray s 0 0 1) 0 = [20] ∧
     LvArray.sizeOfArray (LvArray.eraseFromArray s 0 0 1) 0 = 1) := by
  decide

namespace AuxList

theorem getD_set_self {l : List Int} {i : Nat} {v : Int} (h : i < l.length) :
    (l.set i v).getD i 0 = v := by
  rw [List.getD_eq_getElem _ 0 (by simpa using h)]
  simp [List.getElem_set_self]

theorem getD_set_of_ne {l : List Int} {i j : Nat} {v : Int} (h : i ≠ j) :
    (l.set i v).getD j 0 = l.getD j 0 := by
  by_cases hj : j < l.length
  · rw [List.getD_eq_getElem _ 0 (by simpa using hj), List.getD_eq_getElem _ 0 hj]
    exact List.getElem_set_ne h _
  · rw [List.getD_eq_default _ 0 (by simpa using Nat.le_of_not_lt hj),
      List.getD_eq_default _ 0 (Nat.le_of_not_lt hj)]

theorem getD_take {l : List Int} {k t : Nat} (h : t < k) :
    (l.take k).getD t 0 = l.getD t 0 := by
  by_cases ht : t < l.length
  · rw [List.getD_eq_getElem _ 0 (by simp; omega), List.getD_eq_getElem _ 0 ht]
    exact List.getElem_take l
  · rw [List.getD_eq_default _ 0 (by simp; omega),
      List.getD_eq_default _ 0 (Nat.le_of_not_lt ht)]

theorem getD_append_left {l₁ l₂ : List Int} {t : Nat} (h : t < l₁.length) :
    (l₁ ++ l₂).getD t 0 = l₁.getD t 0 := by
  rw [List.getD_eq_getElem _ 0 (by simp; omega), List.getD_eq_getElem _ 0 h]
  exact List.getElem_append_left h

theorem getD_append_right {l₁ l₂ : List Int} {t : Nat} (h : l₁.length ≤ t) :
    (l₁ ++ l₂).getD t 0 = l₂.getD (t - l₁.length) 0 := by
  by_cases ht : t < l₁.length + l₂.length
  · rw [List.getD_eq_getElem _ 0 (by simp; omega),
      List.getD_eq_getElem _ 0 (by omega)]
    exact List.getElem_append_right h
  · rw [List.getD_eq_default _ 0 (by simp; omega),
      List.getD_eq_default _ 0 (by omega)]

theorem getD_drop (l : List Int) (k t : Nat) :
    (l.drop k).getD t 0 = l.getD (k + t) 0 := by
  rw [List.getD_eq_getElem?_getD, List.getD_eq_getElem?_getD,
    List.getElem?_drop]

theorem getD_replicate {k t : Nat} {c : Int} (h : t < k) :
    (List.replicate k c).getD t 0 = c := by
  rw [List.getD_eq_getElem _ 0 (by simpa using h)]
  exact List.getElem_replicate c _

theorem getD_range_map {m t : Nat} {f : Nat → Int} (h : t < m) :
    (((List.range m).map f).getD t 0) = f t := by
  rw [List.getD_eq_getElem _ 0 (by simpa using h)]
  simp

theorem getD_ge_length {l : List Int} {t : Nat} (h : l.length ≤ t) :
    l.getD t 0 = 0 :=
  List.getD_eq_default _ 0 h

theorem scanl_length (cs : List Int) (b : Int) :
    (cs.scanl (· + ·) b).length = cs.length + 1 := by
  simp [List.length_scanl]

theorem scanl_getD_succ :
    ∀ (cs : List Int) (b : Int) (t : Nat), t < cs.length →
      (cs.scanl (· + ·) b).getD (t + 1) 0 =
        (cs.scanl (· + ·) b).getD t 0 + cs.getD t 0 := by
  intro cs
  induction cs with
  | nil => intro b t ht; simp at ht
  | cons c cs ih =>
    intro b t ht
    rw [List.scanl_cons]
    cases t with
    | zero => simp [List.getD_cons_succ, List.getD_cons_zero]
      -- goal: (scanl (b+c) cs).getD 0 = b + c
    | succ t =>
      rw [List.singleton_append, List.getD_cons_succ, List.getD_cons_succ]
      exact ih (b + c) t (by simpa using ht)

theorem scanl_getD_zero (cs : List Int) (b : Int) :
    (cs.scanl (· + ·) b).getD 0 0 = b := by
  cases cs <;> simp [List.scanl_cons]

theorem map_range_congr {f g : Nat → Int} {n : Nat}
    (h : ∀ k, k < n → f k = g k) :
    (List.range n).map f = (List.range n).map g := by
  apply List.map_congr_left
  intro k hk
  exact h k (List.mem_range.mp hk)

theorem map_range_succ (f : Nat → Int) (n : Nat) :
    (List.range (n + 1)).map f = (List.range n).map f ++ [f n] := by
  rw [List.range_succ, List.map_append, List.map_cons, List.map_nil]

end AuxList

namespace LvArray

theorem inv_set_size_bump {a : ArrayOfArrays} (hInv : Inv a) {i : Nat}
    (hi : i < a.numArrays) {newSize : Int}
    (h0 : 0 ≤ newSize) (hcap : newSize ≤ capacityOfArray a i)
    (vals : Int → Int) :
    Inv { a with sizes := a.sizes.set i newSize, values := vals } := by
  obtain ⟨hol, hsl, hb⟩ := hInv
  refine ⟨hol, by simpa using hsl, ?_⟩
  intro t ht
  by_cases hti : i = t
  · subst hti
    have : sizeOfArray { a with sizes := a.sizes.set i newSize, values := vals } i = newSize := by
      unfold sizeOfArray
      exact AuxList.getD_set_self (by omega)
    unfold sizeOfArray capacityOfArray at *
    simp only at this
    rw [this]
    exact ⟨h0, hcap⟩
  · have : sizeOfArray { a with sizes := a.sizes.set i newSize } t =
        sizeOfArray a t := by
      unfold sizeOfArray
      exact AuxList.getD_set_of_ne hti
    unfold sizeOfArray capacityOfArray at *
    simp only at this
    rw [this]
    exact hb t ht

theorem inv_emplaceBack {a : ArrayOfArrays} {i : Nat} {v : Int}
    (hInv : Inv a) (hi : i < a.numArrays)
    (hcap : sizeOfArray a i + 1 ≤ capacityOfArray a i) :
    Inv (emplaceBack a i v) :=
  inv_set_size_bump hInv hi
    (le_trans (hInv.2.2 i hi).1 (by unfold sizeOfArray; omega)) hcap _

theorem inv_appendToArray {a : ArrayOfArrays} {i : Nat} {vs : List Int}
    (hInv : Inv a) (hi : i < a.numArrays)
    (hcap : sizeOfArray a i + vs.length ≤ capacityOfArray a i) :
    Inv (appendToArray a i vs) :=
  inv_set_size_bump hInv hi
    (le_trans (hInv.2.2 i hi).1 (by unfold sizeOfArray; omega)) hcap _

theorem inv_emplace {a : ArrayOfArrays} {i : Nat} {j v : Int}
    (hInv : Inv a) (hi : i < a.numArrays)
    (hcap : sizeOfArray a i + 1 ≤ capacityOfArray a i) :
    Inv (emplace a i j v) :=
  inv_set_size_bump hInv hi
    (le_trans (hInv.2.2 i hi).1 (by unfold sizeOfArray; omega)) hcap _

theorem inv_insertIntoArray {a : ArrayOfArrays} {i : Nat} {j : Int}
    {vs : List Int} (hInv : Inv a) (hi : i < a.numArrays)
    (hcap : sizeOfArray a i + vs.length ≤ capacityOfArray a i) :
    Inv (insertIntoArray a i j vs) :=
  inv_set_size_bump hInv hi
    (le_trans (hInv.2.2 i hi).1 (by unfold sizeOfArray; omega)) hcap _

theorem inv_eraseFromArray {a : ArrayOfArrays} {i : Nat} {j n : Int}
    (hInv : Inv a) (hi : i < a.numArrays) (hj : 0 ≤ j) (hn : 0 ≤ n)
    (hjn : j + n ≤ sizeOfArray a i) :
    Inv (eraseFromArray a i j n) :=
  inv_set_size_bump hInv hi (by unfold sizeOfArray at *; omega)
    (by
      have := (hInv.2.2 i hi).2
      unfold sizeOfArray capacityOfArray at *
      omega) _

theorem resizeGrowOffsets_length {a : ArrayOfArrays} {newSize : Nat}
    {d : Int} (hlen : a.offsets.length = a.numArrays + 1)
    (hgrow : a.numArrays ≤ newSize) :
    (resizeGrowOffsets a newSize d).length = newSize + 1 := by
  unfold resizeGrowOffsets
  by_cases hd : 0 < d
  · rw [if_pos hd]
    simp
  · rw [if_neg hd]
    by_cases hn0 : a.numArrays = 0
    · simp only [if_pos hn0]
      rw [List.length_append, List.length_take, List.length_replicate]
      omega
    · simp only [if_neg hn0]
      rw [List.length_append, List.length_take, List.length_replicate, hlen]
      omega

theorem resizeGrowOffsets_getD {a : ArrayOfArrays} {newSize : Nat}
    {d : Int} (hlen : a.offsets.length = a.numArrays + 1)
    (hgrow : a.numArrays ≤ newSize) {t : Nat} (ht : t ≤ newSize) :
    (resizeGrowOffsets a newSize d).getD t 0 =
      if a.numArrays = 0 then (if 0 < d then (t : Int) * d else 0)
      else if t ≤ a.numArrays then a.offsets.getD t 0
      else if 0 < d then
        a.offsets.getD a.numArrays 0 + ((t - a.numArrays : Nat) : Int) * d
      else a.offsets.getD a.numArrays 0 := by
  unfold resizeGrowOffsets
  have hoff1 : ∀ u, u ≤ newSize →
      ((a.offsets.take (if a.numArrays = 0 then 0 else a.numArrays + 1) ++
        List.replicate
          (newSize + 1 - (if a.numArrays = 0 then 0 else a.numArrays + 1))
          (if a.numArrays = 0 then 0 else a.offsets.getD a.numArrays 0)).getD
        u 0) =
      if a.numArrays = 0 then 0
      else if u ≤ a.numArrays then a.offsets.getD u 0
      else a.offsets.getD a.numArrays 0 := by
    intro u hu
    by_cases hn0 : a.numArrays = 0
    · simp only [if_pos hn0]
      rw [List.take_zero, List.nil_append]
      exact AuxList.getD_replicate (by omega)
    · simp only [if_neg hn0]
      have hltk : (a.offsets.take (a.numArrays + 1)).length =
          a.numArrays + 1 := by
        rw [List.length_take, hlen]; omega
      by_cases hua : u ≤ a.numArrays
      · have h1 : u < (a.offsets.take (a.numArrays + 1)).length := by
          rw [hltk]; omega
        rw [if_pos hua, AuxList.getD_append_left h1]
        exact AuxList.getD_take (show u < a.numArrays + 1 by omega)
      · have h1 : (a.offsets.take (a.numArrays + 1)).length ≤ u := by
          rw [hltk]; omega
        rw [if_neg hua, AuxList.getD_append_right h1, hltk]
        exact AuxList.getD_replicate
          (show u - (a.numArrays + 1) < newSize + 1 - (a.numArrays + 1) by omega)
  by_cases hd : 0 < d
  · rw [if_pos hd, AuxList.getD_range_map (by omega)]
    by_cases hta : a.numArrays + 1 ≤ t
    · rw [if_pos hta]
      by_cases hn0 : a.numArrays = 0
      · simp [hn0, hd]
      · simp only [if_neg hn0, if_pos hd,
          if_neg (show ¬ t ≤ a.numArrays by omega)]
    · rw [if_neg hta, hoff1 t ht]
      by_cases hn0 : a.numArrays = 0
      · simp only [if_pos hn0]
        have h0 : t = 0 := by omega
        simp [h0]
      · simp only [if_neg hn0]
        have htle : t ≤ a.numArrays := by omega
        rw [if_pos htle, if_pos htle]
  · rw [if_neg hd, hoff1 t ht]
    by_cases hn0 : a.numArrays = 0
    · simp [hn0, hd]
    · simp only [if_neg hn0]
      by_cases hta : t ≤ a.numArrays
      · rw [if_pos hta, if_pos hta]
      · rw [if_neg hta, if_neg hta, if_neg hd]

theorem inv_resize {a : ArrayOfArrays} (hInv : Inv a) (newSize : Nat)
    (d : Int) : Inv (resize a newSize d) := by
  obtain ⟨hol, hsl, hb⟩ := hInv
  unfold resize
  by_cases hshrink : newSize < a.numArrays
  · rw [if_pos hshrink]
    refine ⟨?_, ?_, ?_⟩
    · show (a.offsets.take (newSize + 1)).length = newSize + 1
      rw [List.length_take]; omega
    · show (a.sizes.take newSize).length = newSize
      rw [List.length_take]; omega
    · intro t ht
      have ht' : t < newSize := ht
      constructor
      · show (0 : Int) ≤ (a.sizes.take newSize).getD t 0
        rw [AuxList.getD_take ht']
        exact (hb t (by omega)).1
      · show (a.sizes.take newSize).getD t 0 ≤
          (a.offsets.take (newSize + 1)).getD (t + 1) 0 -
            (a.offsets.take (newSize + 1)).getD t 0
        rw [AuxList.getD_take ht', AuxList.getD_take (by omega),
          AuxList.getD_take (by omega)]
        exact (hb t (by omega)).2
  · rw [if_neg hshrink]
    have hgrow : a.numArrays ≤ newSize := by omega
    have hstk : (a.sizes.take a.numArrays).length = a.numArrays := by
      rw [List.length_take, hsl]; omega
    have hsz : ∀ u, u < newSize →
        (a.sizes.take a.numArrays ++
          List.replicate (newSize - a.numArrays) (0 : Int)).getD u 0 =
        if u < a.numArrays then a.sizes.getD u 0 else 0 := by
      intro u hu
      by_cases hua : u < a.numArrays
      · have h1 : u < (a.sizes.take a.numArrays).length := by omega
        rw [if_pos hua, AuxList.getD_append_left h1]
        exact AuxList.getD_take (by omega)
      · have h1 : (a.sizes.take a.numArrays).length ≤ u := by omega
        rw [if_neg hua, AuxList.getD_append_right h1, hstk]
        exact AuxList.getD_replicate (by omega)
    refine ⟨?_, ?_, ?_⟩
    · show (resizeGrowOffsets a newSize d).length = newSize + 1
      exact resizeGrowOffsets_length hol hgrow
    · show (a.sizes.take a.numArrays ++
        List.replicate (newSize - a.numArrays) 0).length = newSize
      rw [List.length_append, List.length_take, List.length_replicate, hsl]
      omega
    · intro t ht
      have ht' : t < newSize := ht
      have hofft := fun (u : Nat) (hu : u ≤ newSize) =>
        resizeGrowOffsets_getD (d := d) hol hgrow hu
      constructor
      · show (0 : Int) ≤ (a.sizes.take a.numArrays ++
          List.replicate (newSize - a.numArrays) 0).getD t 0
        rw [hsz t ht']
        by_cases hta : t < a.numArrays
        · rw [if_pos hta]; exact (hb t hta).1
        · rw [if_neg hta]
      · show (a.sizes.take a.numArrays ++
          List.replicate (newSize - a.numArrays) 0).getD t 0 ≤
          (resizeGrowOffsets a newSize d).getD (t + 1) 0 -
            (resizeGrowOffsets a newSize d).getD t 0
        rw [hsz t ht', hofft t (by omega), hofft (t + 1) (by omega)]
        by_cases hn0 : a.numArrays = 0
        · simp only [if_pos hn0]
          have hta : ¬ t < a.numArrays := by omega
          rw [if_neg hta]
          by_cases hd : 0 < d
          · rw [if_pos hd, if_pos hd]
            push_cast
            nlinarith
          · rw [if_neg hd, if_neg hd]; omega
        · simp only [if_neg hn0]
          by_cases hta : t < a.numArrays
          · rw [if_pos hta, if_pos (by omega : t + 1 ≤ a.numArrays),
              if_pos (by omega : t ≤ a.numArrays)]
            exact (hb t hta).2
          · rw [if_neg hta, if_neg (by omega : ¬ t + 1 ≤ a.numArrays)]
            by_cases hta2 : t ≤ a.numArrays
            · rw [if_pos hta2]
              have heq : t = a.numArrays := by omega
              by_cases hd : 0 < d
              · rw [if_pos hd]
                have h1 : (t + 1 - a.numArrays : Nat) = 1 := by omega
                rw [h1, heq]
                push_cast
                nlinarith
              · rw [if_neg hd, heq]; omega
            · rw [if_neg hta2]
              by_cases hd : 0 < d
              · rw [if_pos hd, if_pos hd]
                have h1 : ((t + 1 - a.numArrays : Nat) : Int) =
                    ((t - a.numArrays : Nat) : Int) + 1 := by
                  push_cast
                  omega
                rw [h1]
                nlinarith
              · rw [if_neg hd, if_neg hd]; omega

theorem inv_resizeFromCapacities {a : ArrayOfArrays} {n : Nat}
    {caps : List Int} (hlen : n ≤ caps.length)
    (hpos : ∀ c ∈ caps.take n, 0 ≤ c) :
    Inv (resizeFromCapacities a n caps) := by
  refine ⟨?_, by simp [resizeFromCapacities], ?_⟩
  · show ((caps.take n).scanl (· + ·) 0).length = n + 1
    rw [AuxList.scanl_length, List.length_take, Nat.min_eq_left hlen]
  · intro t ht
    have hsz : sizeOfArray (resizeFromCapacities a n caps) t = 0 := by
      show (List.replicate n (0 : Int)).getD t 0 = 0
      exact AuxList.getD_replicate ht
    have ht' : t < n := ht
    have htlen : t < (caps.take n).length := by
      rw [List.length_take]; omega
    have hcap : capacityOfArray (resizeFromCapacities a n caps) t =
        (caps.take n).getD t 0 := by
      show ((caps.take n).scanl (· + ·) 0).getD (t + 1) 0 -
        ((caps.take n).scanl (· + ·) 0).getD t 0 = (caps.take n).getD t 0
      rw [AuxList.scanl_getD_succ _ 0 t htlen]
      ring
    rw [hsz, hcap]
    refine ⟨le_refl 0, ?_⟩
    rw [List.getD_eq_getElem _ 0 htlen]
    exact hpos _ (List.getElem_mem htlen)

theorem compressGo_succ (st : ArrayOfArrays) (i n : Nat) :
    compressGo st i (n + 1) = compressGo (compressStep st i) (i + 1) n := rfl

theorem compressGo_numArrays : ∀ (steps : Nat) (st : ArrayOfArrays) (i : Nat),
    (compressGo st i steps).numArrays = st.numArrays := by
  intro steps
  induction steps with
  | zero => intro st i; rfl
  | succ n ih => intro st i; exact ih (compressStep st i) (i + 1)

theorem compressGo_sizes : ∀ (steps : Nat) (st : ArrayOfArrays) (i : Nat),
    (compressGo st i steps).sizes = st.sizes := by
  intro steps
  induction steps with
  | zero => intro st i; rfl
  | succ n ih => intro st i; exact ih (compressStep st i) (i + 1)

theorem compressGo_offsets_length :
    ∀ (steps : Nat) (st : ArrayOfArrays) (i : Nat),
    (compressGo st i steps).offsets.length = st.offsets.length := by
  intro steps
  induction steps with
  | zero => intro st i; rfl
  | succ n ih =>
    intro st i
    rw [compressGo_succ, ih (compressStep st i) (i + 1)]
    exact List.length_set ..

theorem compressGo_offsets_low :
    ∀ (steps : Nat) (st : ArrayOfArrays) (i t : Nat), t ≤ i →
    (compressGo st i steps).offsets.getD t 0 = st.offsets.getD t 0 := by
  intro steps
  induction steps with
  | zero => intro st i t ht; rfl
  | succ n ih =>
    intro st i t ht
    rw [compressGo_succ, ih (compressStep st i) (i + 1) t (by omega)]
    exact AuxList.getD_set_of_ne (by omega)

theorem compressGo_offsets_high :
    ∀ (steps : Nat) (st : ArrayOfArrays) (i t : Nat), i + steps < t →
    (compressGo st i steps).offsets.getD t 0 = st.offsets.getD t 0 := by
  intro steps
  induction steps with
  | zero => intro st i t ht; rfl
  | succ n ih =>
    intro st i t ht
    rw [compressGo_succ, ih (compressStep st i) (i + 1) t (by omega)]
    exact AuxList.getD_set_of_ne (by omega)

theorem compressGo_offsets_chain :
    ∀ (steps : Nat) (st : ArrayOfArrays) (i : Nat),
    i + steps < st.offsets.length →
    ∀ t, i ≤ t → t < i + steps →
    (compressGo st i steps).offsets.getD (t + 1) 0 =
      (compressGo st i steps).offsets.getD t 0 + st.sizes.getD t 0 := by
  intro steps
  induction steps with
  | zero => intro st i _ t h1 h2; omega
  | succ n ih =>
    intro st i hlen t h1 h2
    rw [compressGo_succ]
    have hslen : (compressStep st i).offsets.length = st.offsets.length := by
      show (st.offsets.set (i + 1) _).length = _
      exact List.length_set ..
    by_cases hti : t = i
    · subst hti
      rw [compressGo_offsets_low n (compressStep st t) (t + 1) (t + 1)
          (le_refl _),
        compressGo_offsets_low n (compressStep st t) (t + 1) t (by omega)]
      have hset1 : (compressStep st t).offsets.getD (t + 1) 0 =
          st.offsets.getD t 0 + st.sizes.getD t 0 := by
        show (st.offsets.set (t + 1) _).getD (t + 1) 0 = _
        rw [AuxList.getD_set_self (by omega)]
        ring
      have hset2 : (compressStep st t).offsets.getD t 0 =
          st.offsets.getD t 0 := by
        show (st.offsets.set (t + 1) _).getD t 0 = _
        exact AuxList.getD_set_of_ne (by omega)
      rw [hset1, hset2]
    · have hrec := ih (compressStep st i) (i + 1) (by rw [hslen]; omega) t
        (by omega) (by omega)
      rw [hrec]
      have hs : (compressStep st i).sizes.getD t 0 = st.sizes.getD t 0 := rfl
      rw [hs]

theorem inv_compress {a : ArrayOfArrays} (hInv : Inv a) : Inv (compress a) := by
  obtain ⟨hol, hsl, hb⟩ := hInv
  unfold compress
  by_cases hn0 : a.numArrays = 0
  · rw [if_pos hn0]
    exact ⟨hol, hsl, hb⟩
  · rw [if_neg hn0]
    have hgn := compressGo_numArrays (a.numArrays - 1) a 0
    have hgs := compressGo_sizes (a.numArrays - 1) a 0
    have hgl := compressGo_offsets_length (a.numArrays - 1) a 0
    refine ⟨?_, ?_, ?_⟩
    · show ((compressGo a 0 (a.numArrays - 1)).offsets.set a.numArrays _).length
        = _ + 1
      rw [List.length_set, hgl, hol, hgn]
    · show (compressGo a 0 (a.numArrays - 1)).sizes.length = _
      rw [hgs, hgn, hsl]
    · intro t ht
      have ht2 : t < (compressGo a 0 (a.numArrays - 1)).numArrays := ht
      rw [hgn] at ht2
      have ht' : t < a.numArrays := ht2
      constructor
      · show (0 : Int) ≤ (compressGo a 0 (a.numArrays - 1)).sizes.getD t 0
        rw [hgs]
        exact (hb t ht').1
      · show (compressGo a 0 (a.numArrays - 1)).sizes.getD t 0 ≤
          ((compressGo a 0 (a.numArrays - 1)).offsets.set a.numArrays
            ((compressGo a 0 (a.numArrays - 1)).offsets.getD (a.numArrays - 1) 0 +
              (compressGo a 0 (a.numArrays - 1)).sizes.getD (a.numArrays - 1) 0)).getD
            (t + 1) 0 -
          ((compressGo a 0 (a.numArrays - 1)).offsets.set a.numArrays
            ((compressGo a 0 (a.numArrays - 1)).offsets.getD (a.numArrays - 1) 0 +
              (compressGo a 0 (a.numArrays - 1)).sizes.getD (a.numArrays - 1) 0)).getD
            t 0
        rw [hgs]
        by_cases hlast : t = a.numArrays - 1
        · have he : t + 1 = a.numArrays := by omega
          rw [he, AuxList.getD_set_self (by rw [hgl, hol]; omega),
            AuxList.getD_set_of_ne (by omega), hlast]
          omega
        · rw [AuxList.getD_set_of_ne (by omega),
            AuxList.getD_set_of_ne (by omega),
            compressGo_offsets_chain (a.numArrays - 1) a 0 (by omega) t
              (Nat.zero_le t) (by omega)]
          omega

theorem inv_setCapacityOfArray {a : ArrayOfArrays} (hInv : Inv a) {i : Nat}
    (hi : i < a.numArrays) {newCap : Int} (hnc : 0 ≤ newCap) :
    Inv (setCapacityOfArray a i newCap) := by
  obtain ⟨hol, hsl, hb⟩ := hInv
  unfold setCapacityOfArray
  by_cases h0 : newCap - capacityOfArray a i = 0
  · rw [if_pos h0]
    exact ⟨hol, hsl, hb⟩
  · rw [if_neg h0]
    have hoff : ∀ u, u ≤ a.numArrays →
        (((List.range (a.numArrays + 1)).map fun u =>
          if i + 1 ≤ u then a.offsets.getD u 0 + (newCap - capacityOfArray a i)
          else a.offsets.getD u 0).getD u 0) =
        if i + 1 ≤ u then a.offsets.getD u 0 + (newCap - capacityOfArray a i)
        else a.offsets.getD u 0 :=
      fun u hu => AuxList.getD_range_map (by omega)
    have hcap : ∀ t, t < a.numArrays →
        (((List.range (a.numArrays + 1)).map fun u =>
          if i + 1 ≤ u then a.offsets.getD u 0 + (newCap - capacityOfArray a i)
          else a.offsets.getD u 0).getD (t + 1) 0) -
        (((List.range (a.numArrays + 1)).map fun u =>
          if i + 1 ≤ u then a.offsets.getD u 0 + (newCap - capacityOfArray a i)
          else a.offsets.getD u 0).getD t 0) =
        if t = i then newCap else capacityOfArray a t := by
      intro t ht
      rw [hoff (t + 1) (by omega), hoff t (by omega)]
      by_cases hti : t = i
      · rw [if_pos hti, if_pos (by omega : i + 1 ≤ t + 1),
          if_neg (by omega : ¬ i + 1 ≤ t), hti]
        unfold capacityOfArray
        ring
      · rw [if_neg hti]
        by_cases htlt : t < i
        · rw [if_neg (by omega : ¬ i + 1 ≤ t + 1),
            if_neg (by omega : ¬ i + 1 ≤ t)]
          rfl
        · rw [if_pos (by omega : i + 1 ≤ t + 1), if_pos (by omega : i + 1 ≤ t)]
          unfold capacityOfArray
          ring
    by_cases hpos : 0 < newCap - capacityOfArray a i
    · rw [if_pos hpos]
      refine ⟨?_, hsl, ?_⟩
      · show ((List.range (a.numArrays + 1)).map _).length = a.numArrays + 1
        simp
      · intro t ht
        have ht' : t < a.numArrays := ht
        have hc := hcap t ht'
        constructor
        · exact (hb t ht').1
        · show a.sizes.getD t 0 ≤ _ - _
          rw [hc]
          by_cases hti : t = i
          · rw [if_pos hti, hti]
            have h2 := (hb i hi).2
            have hp2 := hpos
            unfold sizeOfArray capacityOfArray at h2 hp2
            omega
          · rw [if_neg hti]
            exact (hb t ht').2
    · rw [if_neg hpos]
      refine ⟨?_, by simpa using hsl, ?_⟩
      · show ((List.range (a.numArrays + 1)).map _).length = a.numArrays + 1
        simp
      · intro t ht
        have ht' : t < a.numArrays := ht
        have hc := hcap t ht'
        by_cases hti : t = i
        · have hszt : (a.sizes.set i (min (a.sizes.getD i 0) newCap)).getD t 0 =
              min (a.sizes.getD i 0) newCap := by
            rw [hti]
            exact AuxList.getD_set_self (by omega)
          constructor
          · show (0 : Int) ≤ (a.sizes.set i (min (a.sizes.getD i 0) newCap)).getD t 0
            rw [hszt]
            have := (hb i hi).1
            unfold sizeOfArray at this
            exact le_min this hnc
          · show (a.sizes.set i (min (a.sizes.getD i 0) newCap)).getD t 0 ≤ _ - _
            rw [hszt, hc, if_pos hti]
            exact min_le_right _ _
        · have hszt : (a.sizes.set i (min (a.sizes.getD i 0) newCap)).getD t 0 =
              a.sizes.getD t 0 := AuxList.getD_set_of_ne (by omega)
          constructor
          · show (0 : Int) ≤ (a.sizes.set i (min (a.sizes.getD i 0) newCap)).getD t 0
            rw [hszt]
            exact (hb t ht').1
          · show (a.sizes.set i (min (a.sizes.getD i 0) newCap)).getD t 0 ≤ _ - _
            rw [hszt, hc, if_neg hti]
            exact (hb t ht').2

/-- C1 auxiliary: every mutating operation, applied under its own
precondition, preserves the capacity invariant. -/
theorem inv_applyOp {a : ArrayOfArrays} (hInv : Inv a) (op : AoAOp)
    (hPre : opPre a op) : Inv (applyOp a op) := by
  cases op with
  | emplaceBack i v => exact inv_emplaceBack hInv hPre.1 hPre.2
  | appendToArray i vs => exact inv_appendToArray hInv hPre.1 hPre.2
  | emplace i j v => exact inv_emplace hInv hPre.1 hPre.2.2.2
  | insertIntoArray i j vs => exact inv_insertIntoArray hInv hPre.1 hPre.2.2.2
  | eraseFromArray i j n =>
    exact inv_eraseFromArray hInv hPre.1 hPre.2.1 hPre.2.2.1 hPre.2.2.2
  | resize newSize cap => exact inv_resize hInv newSize cap
  | resizeFromCapacities n caps =>
    exact inv_resizeFromCapacities hPre.1 hPre.2
  | compress => exact inv_compress hInv
  | setCapacityOfArray i newCap =>
    exact inv_setCapacityOfArray hInv hPre.1 hPre.2

theorem compressStep_offsets (st : ArrayOfArrays) (i : Nat) :
    (compressStep st i).offsets =
      st.offsets.set (i + 1)
        (st.offsets.getD (i + 1) 0 -
          (st.offsets.getD (i + 1) 0 - st.offsets.getD i 0 -
            st.sizes.getD i 0)) := rfl

theorem compressStep_values (st : ArrayOfArrays) (i : Nat) (q : Int) :
    (compressStep st i).values q =
      if st.offsets.getD (i + 1) 0 -
          (st.offsets.getD (i + 1) 0 - st.offsets.getD i 0 -
            st.sizes.getD i 0) ≤ q ∧
        q < st.offsets.getD (i + 1) 0 -
          (st.offsets.getD (i + 1) 0 - st.offsets.getD i 0 -
            st.sizes.getD i 0) + st.sizes.getD (i + 1) 0 then
        st.values (q + (st.offsets.getD (i + 1) 0 - st.offsets.getD i 0 -
          st.sizes.getD i 0))
      else st.values q := rfl

theorem compressStep_getD_set (st : ArrayOfArrays) (i : Nat)
    (hlen : i + 1 < st.offsets.length) :
    (compressStep st i).offsets.getD (i + 1) 0 =
      st.offsets.getD i 0 + st.sizes.getD i 0 := by
  rw [compressStep_offsets, AuxList.getD_set_self hlen]
  ring

theorem compressStep_getD_other (st : ArrayOfArrays) {i t : Nat}
    (h : t ≠ i + 1) :
    (compressStep st i).offsets.getD t 0 = st.offsets.getD t 0 := by
  rw [compressStep_offsets]
  exact AuxList.getD_set_of_ne (fun he => h he.symm)

theorem compressStep_inv {st : ArrayOfArrays} (hInv : Inv st)
    (hMono : OffsetsMono st) {i : Nat} (hi : i < st.numArrays) :
    Inv (compressStep st i) := by
  obtain ⟨hol, hsl, hb⟩ := hInv
  have hii1 : st.offsets.getD i 0 + st.sizes.getD i 0 ≤
      st.offsets.getD (i + 1) 0 := by
    have := (hb i hi).2
    unfold sizeOfArray capacityOfArray at this
    omega
  refine ⟨?_, hsl, ?_⟩
  · rw [compressStep_offsets, List.length_set]
    exact hol
  · intro t ht
    have ht' : t < st.numArrays := ht
    have hs0 := (hb t ht').1
    have hs2 := (hb t ht').2
    unfold sizeOfArray at hs0
    unfold sizeOfArray capacityOfArray at hs2 ⊢
    rw [show (compressStep st i).sizes = st.sizes from rfl]
    refine ⟨hs0, ?_⟩
    by_cases ht1 : t = i
    · subst ht1
      rw [compressStep_getD_set st t (by rw [hol]; omega),
        compressStep_getD_other st (by omega)]
      omega
    · by_cases ht2 : t = i + 1
      · subst ht2
        rw [compressStep_getD_other st (by omega),
          compressStep_getD_set st i (by rw [hol]; omega)]
        have hb1 := (hb (i + 1) ht').2
        unfold sizeOfArray capacityOfArray at hb1
        omega
      · rw [compressStep_getD_other st (by omega),
          compressStep_getD_other st ht2]
        omega

theorem compressStep_mono {st : ArrayOfArrays} (hInv : Inv st)
    (hMono : OffsetsMono st) {i : Nat} (hi : i < st.numArrays) :
    OffsetsMono (compressStep st i) := by
  obtain ⟨hol, hsl, hb⟩ := hInv
  have hii1 : st.offsets.getD i 0 + st.sizes.getD i 0 ≤
      st.offsets.getD (i + 1) 0 := by
    have := (hb i hi).2
    unfold sizeOfArray capacityOfArray at this
    omega
  have hsi : 0 ≤ st.sizes.getD i 0 := (hb i hi).1
  intro u hu t htu
  have hnum : (compressStep st i).numArrays = st.numArrays := rfl
  rw [hnum] at hu
  by_cases ht1 : t = i + 1
  · subst ht1
    rw [compressStep_getD_set st i (by omega)]
    by_cases hu1 : u = i + 1
    · subst hu1
      rw [compressStep_getD_set st i (by omega)]
    · rw [compressStep_getD_other st hu1]
      exact le_trans hii1 (hMono u hu (i + 1) htu)
  · rw [compressStep_getD_other st ht1]
    by_cases hu1 : u = i + 1
    · subst hu1
      rw [compressStep_getD_set st i (by omega)]
      have : st.offsets.getD t 0 ≤ st.offsets.getD i 0 :=
        hMono i (by omega) t (by omega)
      omega
    · rw [compressStep_getD_other st hu1]
      exact hMono u hu t htu

theorem compressGo_values :
    ∀ (steps : Nat) (st : ArrayOfArrays) (i : Nat),
    Inv st → OffsetsMono st → i + steps < st.numArrays →
    (∀ q : Int, q < st.offsets.getD i 0 + st.sizes.getD i 0 →
      (compressGo st i steps).values q = st.values q) ∧
    (∀ t, i + 1 ≤ t → t ≤ i + steps → ∀ k : Nat,
      (k : Int) < st.sizes.getD t 0 →
      (compressGo st i steps).values
          ((compressGo st i steps).offsets.getD t 0 + k) =
        st.values (st.offsets.getD t 0 + k)) := by
  intro steps
  induction steps with
  | zero =>
    intro st i _ _ _
    exact ⟨fun q _ => rfl, fun t h1 h2 _ _ => by omega⟩
  | succ n ih =>
    intro st i hInv hMono hlt
    have hInv' := hInv
    obtain ⟨hol, hsl, hb⟩ := hInv'
    have hi : i < st.numArrays := by omega
    have hii1 : st.offsets.getD i 0 + st.sizes.getD i 0 ≤
        st.offsets.getD (i + 1) 0 := by
      have := (hb i hi).2
      unfold sizeOfArray capacityOfArray at this
      omega
    have hsi0 : 0 ≤ st.sizes.getD i 0 := (hb i hi).1
    have hsi1 : 0 ≤ st.sizes.getD (i + 1) 0 := (hb (i + 1) (by omega)).1
    have hInv1 : Inv (compressStep st i) := compressStep_inv hInv hMono hi
    have hMono1 : OffsetsMono (compressStep st i) :=
      compressStep_mono hInv hMono hi
    have hnum1 : (compressStep st i).numArrays = st.numArrays := rfl
    have hlt1 : (i + 1) + n < (compressStep st i).numArrays := by
      rw [hnum1]; omega
    have hih := ih (compressStep st i) (i + 1) hInv1 hMono1 hlt1
    have hoff1 : (compressStep st i).offsets.getD (i + 1) 0 =
        st.offsets.getD i 0 + st.sizes.getD i 0 :=
      compressStep_getD_set st i (by rw [hol]; omega)
    have hsz1 : (compressStep st i).sizes = st.sizes := rfl
    constructor
    · intro q hq
      rw [compressGo_succ]
      have h1 := hih.1 q (by
        rw [hoff1, hsz1]
        omega)
      rw [h1, compressStep_values]
      rw [if_neg (by
        intro hcond
        have := hcond.1
        omega)]
    · intro t h1 h2 k hk
      rw [compressGo_succ]
      by_cases ht1 : t = i + 1
      · subst ht1
        have hofflow : (compressGo (compressStep st i) (i + 1) n).offsets.getD
            (i + 1) 0 = (compressStep st i).offsets.getD (i + 1) 0 :=
          compressGo_offsets_low n (compressStep st i) (i + 1) (i + 1)
            (le_refl _)
        rw [hofflow, hoff1]
        have hkpos : (0 : Int) ≤ (k : Int) := Int.ofNat_nonneg k
        have h3 := hih.1 (st.offsets.getD i 0 + st.sizes.getD i 0 + k) (by
          rw [hoff1, hsz1]
          omega)
        rw [h3, compressStep_values]
        rw [if_pos (by constructor <;> omega)]
        congr 1
        ring
      · -- t ≥ i + 2
        have ht2 : i + 2 ≤ t := by omega
        have h3 := hih.2 t (by omega) (by omega) k (by rw [hsz1]; exact hk)
        rw [h3, compressStep_getD_other st (by omega), compressStep_values]
        rw [if_neg (by
          rintro ⟨hc1, hc2⟩
          -- the position lies at or beyond offsets[i+2] ≥ dest end
          have hmt : st.offsets.getD (i + 2) 0 ≤ st.offsets.getD t 0 :=
            hMono t (by omega) (i + 2) ht2
          have hc3 : st.offsets.getD (i + 1) 0 + st.sizes.getD (i + 1) 0 ≤
              st.offsets.getD (i + 2) 0 := by
            have hx := (hb (i + 1) (by omega)).2
            unfold sizeOfArray capacityOfArray at hx
            rw [show i + 1 + 1 = i + 2 from rfl] at hx
            omega
          omega)]

end LvArray

/-- C1: for every ArrayOfArrays container and every sub-array index
`i < size()`, after any completed public operation
`0 ≤ sizeOfArray(i) ≤ capacityOfArray(i)` and
`capacityOfArray(i) = offsets[i+1] - offsets[i]`; every mutating operation
(emplaceBack, appendToArray, emplace, insertIntoArray, eraseFromArray,
resize, resizeFromCapacities, compress, setCapacityOfArray), applied under
its own precondition, preserves this invariant. -/
theorem C1_capacity_invariant (a : LvArray.ArrayOfArrays)
    (op : LvArray.AoAOp) (hInv : LvArray.Inv a)
    (hPre : LvArray.opPre a op) :
    LvArray.Inv (LvArray.applyOp a op) ∧
    ∀ i, i < (LvArray.applyOp a op).numArrays →
      LvArray.capacityOfArray (LvArray.applyOp a op) i =
        (LvArray.applyOp a op).offsets.getD (i + 1) 0 -
          (LvArray.applyOp a op).offsets.getD i 0 :=
  ⟨LvArray.inv_applyOp hInv op hPre, fun _ _ => rfl⟩

theorem C1_capacity_invariant_witness :
    LvArray.Inv (LvArray.applyOp
      { numArrays := 2, offsets := [0, 2, 5], sizes := [1, 2],
        values := fun _ => 0 } (LvArray.AoAOp.emplaceBack 0 7)) ∧
    ∀ i, i < (LvArray.applyOp
      { numArrays := 2, offsets := [0, 2, 5], sizes := [1, 2],
        values := fun _ => 0 } (LvArray.AoAOp.emplaceBack 0 7)).numArrays →
      LvArray.capacityOfArray (LvArray.applyOp
        { numArrays := 2, offsets := [0, 2, 5], sizes := [1, 2],
          values := fun _ => 0 } (LvArray.AoAOp.emplaceBack 0 7)) i =
        (LvArray.applyOp
          { numArrays := 2, offsets := [0, 2, 5], sizes := [1, 2],
            values := fun _ => 0 }
          (LvArray.AoAOp.emplaceBack 0 7)).offsets.getD (i + 1) 0 -
        (LvArray.applyOp
          { numArrays := 2, offsets := [0, 2, 5], sizes := [1, 2],
            values := fun _ => 0 }
          (LvArray.AoAOp.emplaceBack 0 7)).offsets.getD i 0 :=
  C1_capacity_invariant _ _ ⟨rfl, rfl, by decide⟩ ⟨by decide, by decide⟩

/-- C8: for every populated ArrayOfArrays container, `compress()` may
change the offsets but leaves, for every sub-array index i, the ordered
sequence of live values of sub-array i unchanged, and leaves the total
number of live elements unchanged. -/
theorem C8_compress_preserves_content (a : LvArray.ArrayOfArrays)
    (hInv : LvArray.Inv a) (hMono : LvArray.OffsetsMono a) :
    (LvArray.compress a).numArrays = a.numArrays ∧
    (∀ i, i < a.numArrays →
      LvArray.subArray (LvArray.compress a) i = LvArray.subArray a i) ∧
    LvArray.totalLive (LvArray.compress a) = LvArray.totalLive a := by
  by_cases hn0 : a.numArrays = 0
  · have hc : LvArray.compress a = a := by
      unfold LvArray.compress
      rw [if_pos hn0]
    rw [hc]
    exact ⟨rfl, fun i _ => rfl, rfl⟩
  · obtain ⟨hol, hsl, hb⟩ := hInv
    have hcompress : LvArray.compress a =
        { LvArray.compressGo a 0 (a.numArrays - 1) with
          offsets := (LvArray.compressGo a 0 (a.numArrays - 1)).offsets.set
            a.numArrays
            ((LvArray.compressGo a 0 (a.numArrays - 1)).offsets.getD
                (a.numArrays - 1) 0 +
              (LvArray.compressGo a 0 (a.numArrays - 1)).sizes.getD
                (a.numArrays - 1) 0) } := by
      unfold LvArray.compress
      rw [if_neg hn0]
    have hnum : (LvArray.compress a).numArrays = a.numArrays := by
      rw [hcompress]
      exact LvArray.compressGo_numArrays (a.numArrays - 1) a 0
    have hsizes : (LvArray.compress a).sizes = a.sizes := by
      rw [hcompress]
      exact LvArray.compressGo_sizes (a.numArrays - 1) a 0
    have hvals : (LvArray.compress a).values =
        (LvArray.compressGo a 0 (a.numArrays - 1)).values := by
      rw [hcompress]
    have hoffi : ∀ i, i < a.numArrays → (LvArray.compress a).offsets.getD i 0 =
        (LvArray.compressGo a 0 (a.numArrays - 1)).offsets.getD i 0 := by
      intro i hi
      rw [hcompress]
      exact AuxList.getD_set_of_ne (by omega)
    have hgv := LvArray.compressGo_values (a.numArrays - 1) a 0
      ⟨hol, hsl, hb⟩ hMono (by omega)
    refine ⟨hnum, ?_, ?_⟩
    · intro i hi
      unfold LvArray.subArray LvArray.sizeOfArray
      rw [hsizes, hoffi i hi, hvals]
      apply AuxList.map_range_congr
      intro j hj
      have hjs : (j : Int) < a.sizes.getD i 0 := by omega
      by_cases hi0 : i = 0
      · subst hi0
        rw [LvArray.compressGo_offsets_low (a.numArrays - 1) a 0 0 (le_refl 0)]
        exact hgv.1 (a.offsets.getD 0 0 + j) (by omega)
      · exact hgv.2 i (by omega) (by omega) j hjs
    · unfold LvArray.totalLive LvArray.sizeOfArray
      rw [hnum, hsizes]

theorem C8_compress_preserves_content_witness :
    (LvArray.compress
      { numArrays := 2, offsets := [0, 2, 5], sizes := [1, 2],
        values := fun q => q * 10 }).numArrays = 2 ∧
    (∀ i, i < 2 →
      LvArray.subArray (LvArray.compress
        { numArrays := 2, offsets := [0, 2, 5], sizes := [1, 2],
          values := fun q => q * 10 }) i =
      LvArray.subArray
        { numArrays := 2, offsets := [0, 2, 5], sizes := [1, 2],
          values := fun q => q * 10 } i) ∧
    LvArray.totalLive (LvArray.compress
      { numArrays := 2, offsets := [0, 2, 5], sizes := [1, 2],
        values := fun q => q * 10 }) =
    LvArray.totalLive
      { numArrays := 2, offsets := [0, 2, 5], sizes := [1, 2],
        values := fun q => q * 10 } :=
  C8_compress_preserves_content _ ⟨rfl, rfl, by decide⟩
    (by unfold LvArray.OffsetsMono; decide)

/-- C10: for every view and every valid sub-array index `i` with spare
capacity, `emplaceBack(i, v)` constructs the new element at in-array
position `sizeOfArray i` (the old size), increases `sizeOfArray i` by
exactly one, and leaves the number of sub-arrays, the offsets sequence,
the size and live contents of every other sub-array, and all previously
live elements of sub-array `i` unchanged. -/
theorem C10_emplaceBack_frame (a : LvArray.ArrayOfArrays) (i : Nat) (v : Int)
    (hInv : LvArray.Inv a) (hMono : LvArray.OffsetsMono a)
    (hi : i < a.numArrays)
    (hcap : LvArray.sizeOfArray a i < LvArray.capacityOfArray a i) :
    (LvArray.emplaceBack a i v).numArrays = a.numArrays ∧
    (LvArray.emplaceBack a i v).offsets = a.offsets ∧
    LvArray.sizeOfArray (LvArray.emplaceBack a i v) i =
      LvArray.sizeOfArray a i + 1 ∧
    LvArray.subArray (LvArray.emplaceBack a i v) i =
      LvArray.subArray a i ++ [v] ∧
    (∀ j, j < a.numArrays → j ≠ i →
      LvArray.sizeOfArray (LvArray.emplaceBack a i v) j =
        LvArray.sizeOfArray a j ∧
      LvArray.subArray (LvArray.emplaceBack a i v) j =
        LvArray.subArray a j) := by
  obtain ⟨hol, hsl, hb⟩ := hInv
  have hsi0 : 0 ≤ a.sizes.getD i 0 := (hb i hi).1
  have hvalsq : ∀ q : Int, (LvArray.emplaceBack a i v).values q =
      if q = a.offsets.getD i 0 + a.sizes.getD i 0 then v
      else a.values q := fun q => rfl
  have hszi : LvArray.sizeOfArray (LvArray.emplaceBack a i v) i =
      LvArray.sizeOfArray a i + 1 := by
    unfold LvArray.sizeOfArray
    show (a.sizes.set i (a.sizes.getD i 0 + 1)).getD i 0 = _
    exact AuxList.getD_set_self (by omega)
  refine ⟨rfl, rfl, hszi, ?_, ?_⟩
  · unfold LvArray.subArray
    rw [hszi, show (LvArray.emplaceBack a i v).offsets = a.offsets from rfl]
    unfold LvArray.sizeOfArray
    have htn : (a.sizes.getD i 0 + 1).toNat = (a.sizes.getD i 0).toNat + 1 := by
      omega
    rw [htn, AuxList.map_range_succ]
    congr 1
    · apply AuxList.map_range_congr
      intro j hj
      show (LvArray.emplaceBack a i v).values _ = _
      rw [hvalsq]
      rw [if_neg (by
        intro habs
        have : (j : Int) < a.sizes.getD i 0 := by omega
        omega)]
    · show [(LvArray.emplaceBack a i v).values _] = [v]
      rw [hvalsq]
      rw [if_pos (by
        have : ((a.sizes.getD i 0).toNat : Int) = a.sizes.getD i 0 := by omega
        omega)]
  · intro j hj hji
    have hszj : LvArray.sizeOfArray (LvArray.emplaceBack a i v) j =
        LvArray.sizeOfArray a j := by
      unfold LvArray.sizeOfArray
      show (a.sizes.set i (a.sizes.getD i 0 + 1)).getD j 0 = _
      exact AuxList.getD_set_of_ne (fun he => hji he.symm)
    refine ⟨hszj, ?_⟩
    unfold LvArray.subArray
    rw [hszj, show (LvArray.emplaceBack a i v).offsets = a.offsets from rfl]
    unfold LvArray.sizeOfArray
    apply AuxList.map_range_congr
    intro k hk
    show (LvArray.emplaceBack a i v).values _ = _
    have hneq : ¬ (a.offsets.getD j 0 + (k : Int) =
        a.offsets.getD i 0 + a.sizes.getD i 0) := by
      intro habs
      have hks : (k : Int) < a.sizes.getD j 0 := by omega
      have hcapj := (hb j hj).2
      unfold LvArray.sizeOfArray LvArray.capacityOfArray at hcapj hcap
      rcases Nat.lt_or_ge j i with hlt | hge
      · have h1 : a.offsets.getD (j + 1) 0 ≤ a.offsets.getD i 0 :=
          hMono i (by omega) (j + 1) (by omega)
        omega
      · have hgt : i < j := by omega
        have h1 : a.offsets.getD (i + 1) 0 ≤ a.offsets.getD j 0 :=
          hMono j (by omega) (i + 1) (by omega)
        omega
    rw [hvalsq, if_neg hneq]

theorem C10_emplaceBack_frame_witness :
    (LvArray.emplaceBack
      { numArrays := 2, offsets := [0, 2, 5], sizes := [1, 2],
        values := fun q => q * 10 } 0 7).numArrays = 2 ∧
    (LvArray.emplaceBack
      { numArrays := 2, offsets := [0, 2, 5], sizes := [1, 2],
        values := fun q => q * 10 } 0 7).offsets = [0, 2, 5] ∧
    LvArray.sizeOfArray (LvArray.emplaceBack
      { numArrays := 2, offsets := [0, 2, 5], sizes := [1, 2],
        values := fun q => q * 10 } 0 7) 0 = 1 + 1 ∧
    LvArray.subArray (LvArray.emplaceBack
      { numArrays := 2, offsets := [0, 2, 5], sizes := [1, 2],
        values := fun q => q * 10 } 0 7) 0 =
      LvArray.subArray
        { numArrays := 2, offsets := [0, 2, 5], sizes := [1, 2],
          values := fun q => q * 10 } 0 ++ [7] ∧
    (∀ j, j < 2 → j ≠ 0 →
      LvArray.sizeOfArray (LvArray.emplaceBack
        { numArrays := 2, offsets := [0, 2, 5], sizes := [1, 2],
          values := fun q => q * 10 } 0 7) j =
        LvArray.sizeOfArray
          { numArrays := 2, offsets := [0, 2, 5], sizes := [1, 2],
            values := fun q => q * 10 } j ∧
      LvArray.subArray (LvArray.emplaceBack
        { numArrays := 2, offsets := [0, 2, 5], sizes := [1, 2],
          values := fun q => q * 10 } 0 7) j =
        LvArray.subArray
          { numArrays := 2, offsets := [0, 2, 5], sizes := [1, 2],
            values := fun q => q * 10 } j) :=
  C10_emplaceBack_frame _ 0 7 ⟨rfl, rfl, by decide⟩
    (by unfold LvArray.OffsetsMono; decide) (by decide) (by decide)

namespace sortedArrayManipulation

theorem lowerB_mono {l : List Int} {v w : Int} (h : v ≤ w) :
    lowerB l v ≤ lowerB l w := by
  apply List.countP_mono_left
  intro a _ ha
  simp only [decide_eq_true_eq] at *
  omega

theorem sorted_take {l : List Int} (hs : l.Sorted (· ≤ ·)) (c : Nat) :
    (l.take c).Sorted (· ≤ ·) :=
  List.Pairwise.sublist (List.take_sublist c l) hs

theorem lowerB_take_eq {l : List Int} {v : Int} {c : Nat}
    (hs : l.Sorted (· ≤ ·)) (h : lowerB l v ≤ c) :
    lowerB (l.take c) v = lowerB l v := by
  have hle := lowerB_le_length l v
  apply lowerB_eq_of_pivot
  · rw [List.length_take]
    omega
  · intro k hk
    rw [AuxList.getD_take (by omega)]
    have hkl : k < l.length := by omega
    exact (lowerB_lt_iff hs v hkl).mpr hk
  · intro k hk hklen
    rw [List.length_take] at hklen
    rw [AuxList.getD_take (by omega)]
    intro habs
    have hkl : k < l.length := by omega
    have := (lowerB_lt_iff hs v hkl).mp habs
    omega

theorem find_take_eq {l : List Int} {v : Int} {c : Nat}
    (hs : l.Sorted (· ≤ ·)) (h : lowerB l v ≤ c) :
    find (l.take c) v = lowerB l v := by
  rw [find_eq_lowerB (sorted_take hs c) v]
  exact lowerB_take_eq hs h

theorem not_mem_iff_lowerB {l : List Int} (hs : l.Sorted (· ≤ ·)) (v : Int) :
    v ∉ l ↔ (lowerB l v = l.length ∨ l.getD (lowerB l v) 0 ≠ v) := by
  rw [mem_iff_lowerB hs v]
  have := lowerB_le_length l v
  constructor
  · intro h
    by_cases h1 : lowerB l v = l.length
    · exact Or.inl h1
    · exact Or.inr (fun habs => h ⟨by omega, habs⟩)
  · rintro (h | h) ⟨h1, h2⟩
    · omega
    · exact h h2

theorem newIdx_zero (l values : List Int) :
    newIdx l values 0 = if values.getD 0 0 ∉ l then [0] else [] := rfl

theorem newIdx_succ (l values : List Int) (i : Nat) :
    newIdx l values (i + 1) =
      (if firstOccB values (i + 1) = true ∧ values.getD (i + 1) 0 ∉ l then
        [i + 1]
      else []) ++ newIdx l values i := rfl

theorem countStep_skip {l values : List Int} {i : Nat} {st : CountState}
    (h : i ≠ 0 ∧ values.getD i 0 = values.getD (i - 1) 0) :
    countStep l values i st = st := by
  unfold countStep
  rw [if_pos h]

theorem countStep_new {l values : List Int} {i : Nat} {st : CountState}
    (hl : l.Sorted (· ≤ ·))
    (hnd : ¬ (i ≠ 0 ∧ values.getD i 0 = values.getD (i - 1) 0))
    (hcur : lowerB l (values.getD i 0) ≤ st.curPos)
    (hcl : st.curPos ≤ l.length)
    (habs : values.getD i 0 ∉ l) :
    countStep l values i st =
      { curPos := lowerB l (values.getD i 0),
        nToInsert := st.nToInsert + 1,
        pairs :=
          if st.nToInsert < MAX_PRE_CALCULATED then
            st.pairs ++ [(i, lowerB l (values.getD i 0))]
          else st.pairs } := by
  unfold countStep
  rw [if_neg hnd, find_take_eq hl hcur,
    if_pos ((not_mem_iff_lowerB hl (values.getD i 0)).mp habs)]

theorem countStep_present {l values : List Int} {i : Nat} {st : CountState}
    (hl : l.Sorted (· ≤ ·))
    (hnd : ¬ (i ≠ 0 ∧ values.getD i 0 = values.getD (i - 1) 0))
    (hcur : lowerB l (values.getD i 0) ≤ st.curPos)
    (hcl : st.curPos ≤ l.length)
    (hmem : values.getD i 0 ∈ l) :
    countStep l values i st =
      { st with curPos := lowerB l (values.getD i 0) } := by
  unfold countStep
  rw [if_neg hnd, find_take_eq hl hcur]
  rw [if_neg (by
    intro habs
    exact ((not_mem_iff_lowerB hl (values.getD i 0)).mpr habs) hmem)]

theorem countLoop_spec {l values : List Int} (hl : l.Sorted (· ≤ ·))
    (hv : values.Sorted (· ≤ ·)) :
    ∀ (i : Nat) (st : CountState), i < values.length →
    lowerB l (values.getD i 0) ≤ st.curPos → st.curPos ≤ l.length →
    (countLoop l values i st).nToInsert =
      st.nToInsert + (newIdx l values i).length ∧
    (countLoop l values i st).pairs = st.pairs ++
      ((newIdx l values i).map fun j => (j, lowerB l (values.getD j 0))).take
        (MAX_PRE_CALCULATED - st.nToInsert) := by
  intro i
  induction i with
  | zero =>
    intro st hi hcur hcl
    have hnd : ¬ ((0 : Nat) ≠ 0 ∧
        values.getD 0 0 = values.getD (0 - 1) 0) := fun h => h.1 rfl
    have hc : countLoop l values 0 st = countStep l values 0 st := rfl
    rw [hc]
    by_cases hmem : values.getD 0 0 ∈ l
    · have hni : newIdx l values 0 = [] := by
        rw [newIdx_zero, if_neg (not_not_intro hmem)]
      rw [countStep_present hl hnd hcur hcl hmem, hni]
      exact ⟨rfl, by simp⟩
    · have hni : newIdx l values 0 = [0] := by
        rw [newIdx_zero, if_pos hmem]
      rw [countStep_new hl hnd hcur hcl hmem, hni]
      refine ⟨rfl, ?_⟩
      show (if st.nToInsert < MAX_PRE_CALCULATED then
        st.pairs ++ [(0, lowerB l (values.getD 0 0))] else st.pairs) = _
      by_cases hn32 : st.nToInsert < MAX_PRE_CALCULATED
      · rw [if_pos hn32]
        simp only [List.map_cons, List.map_nil]
        rw [show MAX_PRE_CALCULATED - st.nToInsert =
          (MAX_PRE_CALCULATED - st.nToInsert - 1) + 1 by
            unfold MAX_PRE_CALCULATED at *
            omega]
        rw [List.take_succ_cons, List.take_nil]
      · rw [if_neg hn32]
        rw [show MAX_PRE_CALCULATED - st.nToInsert = 0 by
          unfold MAX_PRE_CALCULATED at *
          omega]
        rw [List.take_zero, List.append_nil]
  | succ i ih =>
    intro st hi hcur hcl
    have hc : countLoop l values (i + 1) st =
        countLoop l values i (countStep l values (i + 1) st) := rfl
    have hvmono : values.getD i 0 ≤ values.getD (i + 1) 0 :=
      Sorted.getD_mono hv (by omega) hi
    have hlbmono : lowerB l (values.getD i 0) ≤
        lowerB l (values.getD (i + 1) 0) := lowerB_mono hvmono
    by_cases hdup : values.getD (i + 1) 0 = values.getD i 0
    · have hskip : countStep l values (i + 1) st = st :=
        countStep_skip ⟨by omega, by simpa using hdup⟩
      rw [hc, hskip]
      have hni : newIdx l values (i + 1) = newIdx l values i := by
        rw [newIdx_succ, if_neg (by
          rintro ⟨hfo, _⟩
          unfold firstOccB at hfo
          simp only [Bool.or_eq_true, decide_eq_true_eq] at hfo
          rcases hfo with h0 | hne
          · omega
          · exact hne (by simpa using hdup)), List.nil_append]
      rw [hni]
      exact ih st (by omega) (le_trans hlbmono hcur) hcl
    · have hnd : ¬ ((i + 1 : Nat) ≠ 0 ∧
          values.getD (i + 1) 0 = values.getD (i + 1 - 1) 0) := by
        rintro ⟨_, he⟩
        exact hdup (by simpa using he)
      have hfo : firstOccB values (i + 1) = true := by
        unfold firstOccB
        simp only [Bool.or_eq_true, decide_eq_true_eq]
        exact Or.inr (by simpa using hdup)
      by_cases hmem : values.getD (i + 1) 0 ∈ l
      · have hstep := countStep_present hl hnd hcur hcl hmem
        rw [hc, hstep]
        have hni : newIdx l values (i + 1) = newIdx l values i := by
          rw [newIdx_succ, if_neg (by rintro ⟨_, hnm⟩; exact hnm hmem),
            List.nil_append]
        rw [hni]
        exact ih _ (by omega) (by simpa using hlbmono)
          (lowerB_le_length l _)
      · have hstep := countStep_new hl hnd hcur hcl hmem
        rw [hc, hstep]
        have hni : newIdx l values (i + 1) =
            (i + 1) :: newIdx l values i := by
          rw [newIdx_succ, if_pos ⟨hfo, hmem⟩]
          rfl
        have hrec := ih
          { curPos := lowerB l (values.getD (i + 1) 0),
            nToInsert := st.nToInsert + 1,
            pairs :=
              if st.nToInsert < MAX_PRE_CALCULATED then
                st.pairs ++ [(i + 1, lowerB l (values.getD (i + 1) 0))]
              else st.pairs }
          (by omega) (by simpa using hlbmono) (lowerB_le_length l _)
        rw [hni]
        constructor
        · rw [hrec.1]
          show st.nToInsert + 1 + (newIdx l values i).length = _
          simp only [List.length_cons]
          omega
        · rw [hrec.2]
          show (if st.nToInsert < MAX_PRE_CALCULATED then
              st.pairs ++ [(i + 1, lowerB l (values.getD (i + 1) 0))]
            else st.pairs) ++
            ((newIdx l values i).map fun j =>
              (j, lowerB l (values.getD j 0))).take
              (MAX_PRE_CALCULATED - (st.nToInsert + 1)) = _
          simp only [List.map_cons]
          by_cases hn32 : st.nToInsert < MAX_PRE_CALCULATED
          · rw [if_pos hn32]
            rw [show MAX_PRE_CALCULATED - st.nToInsert =
              (MAX_PRE_CALCULATED - (st.nToInsert + 1)) + 1 by
                unfold MAX_PRE_CALCULATED at *
                omega]
            rw [List.take_succ_cons, List.append_assoc]
            rfl
          · rw [if_neg hn32]
            rw [show MAX_PRE_CALCULATED - st.nToInsert = 0 by
              unfold MAX_PRE_CALCULATED at *
              omega,
              show MAX_PRE_CALCULATED - (st.nToInsert + 1) = 0 by
                unfold MAX_PRE_CALCULATED at *
                omega]
            rw [List.take_zero, List.take_zero]

theorem firstOccB_zero (values : List Int) : firstOccB values 0 = true := by
  unfold firstOccB
  simp

theorem mem_newIdx {l values : List Int} :
    ∀ {i j : Nat}, j ∈ newIdx l values i ↔
      j ≤ i ∧ firstOccB values j = true ∧ values.getD j 0 ∉ l := by
  intro i
  induction i with
  | zero =>
    intro j
    rw [newIdx_zero]
    by_cases hmem : values.getD 0 0 ∉ l
    · rw [if_pos hmem]
      simp only [List.mem_singleton]
      constructor
      · rintro rfl
        exact ⟨le_refl _, firstOccB_zero values, hmem⟩
      · rintro ⟨hj, _, _⟩
        omega
    · rw [if_neg hmem]
      simp only [List.not_mem_nil, false_iff]
      rintro ⟨hj, _, hm⟩
      have : j = 0 := by omega
      subst this
      exact hmem hm
  | succ i ih =>
    intro j
    rw [newIdx_succ, List.mem_append]
    constructor
    · rintro (hj | hj)
      · by_cases hc : firstOccB values (i + 1) = true ∧
            values.getD (i + 1) 0 ∉ l
        · rw [if_pos hc] at hj
          rw [List.mem_singleton] at hj
          subst hj
          exact ⟨le_refl _, hc.1, hc.2⟩
        · rw [if_neg hc] at hj
          exact absurd hj (List.not_mem_nil j)
      · have := ih.mp hj
        exact ⟨by omega, this.2.1, this.2.2⟩
    · rintro ⟨hle, hfo, hm⟩
      by_cases hji : j = i + 1
      · subst hji
        left
        rw [if_pos ⟨hfo, hm⟩]
        exact List.mem_singleton.mpr rfl
      · right
        exact ih.mpr ⟨by omega, hfo, hm⟩

theorem newIdx_pairwise (l values : List Int) :
    ∀ i, (newIdx l values i).Pairwise (fun a b => b < a) := by
  intro i
  induction i with
  | zero =>
    rw [newIdx_zero]
    by_cases hmem : values.getD 0 0 ∉ l
    · rw [if_pos hmem]
      exact List.pairwise_singleton _ _
    · rw [if_neg hmem]
      exact List.Pairwise.nil
  | succ i ih =>
    rw [newIdx_succ]
    rw [List.pairwise_append]
    refine ⟨?_, ih, ?_⟩
    · by_cases hc : firstOccB values (i + 1) = true ∧
          values.getD (i + 1) 0 ∉ l
      · rw [if_pos hc]
        exact List.pairwise_singleton _ _
      · rw [if_neg hc]
        exact List.Pairwise.nil
    · intro a ha b hb
      have hb' := mem_newIdx.mp hb
      by_cases hc : firstOccB values (i + 1) = true ∧
          values.getD (i + 1) 0 ∉ l
      · rw [if_pos hc] at ha
        rw [List.mem_singleton] at ha
        subst ha
        omega
      · rw [if_neg hc] at ha
        exact absurd ha (List.not_mem_nil a)

theorem firstOcc_value_lt {values : List Int} (hv : values.Sorted (· ≤ ·))
    {a b : Nat} (hba : b < a) (hfa : firstOccB values a = true)
    (hal : a < values.length) :
    values.getD b 0 < values.getD a 0 := by
  have ha1 : 1 ≤ a := by omega
  have h1 : values.getD b 0 ≤ values.getD (a - 1) 0 :=
    Sorted.getD_mono hv (by omega) (by omega)
  have h2 : values.getD (a - 1) 0 ≤ values.getD a 0 :=
    Sorted.getD_mono hv (by omega) hal
  unfold firstOccB at hfa
  simp only [Bool.or_eq_true, decide_eq_true_eq] at hfa
  rcases hfa with h0 | hne
  · omega
  · omega

theorem exists_firstOcc_le (values : List Int) :
    ∀ j, j < values.length → ∃ a, a ≤ j ∧ firstOccB values a = true ∧
      values.getD a 0 = values.getD j 0 := by
  intro j
  induction j with
  | zero => intro _; exact ⟨0, le_refl _, firstOccB_zero values, rfl⟩
  | succ j ih =>
    intro hj
    by_cases hfo : firstOccB values (j + 1) = true
    · exact ⟨j + 1, le_refl _, hfo, rfl⟩
    · unfold firstOccB at hfo
      simp only [Bool.or_eq_true, decide_eq_true_eq, not_or, not_not] at hfo
      obtain ⟨a, ha1, ha2, ha3⟩ := ih (by omega)
      refine ⟨a, by omega, ha2, ?_⟩
      rw [ha3]
      have := hfo.2
      simpa using this.symm

theorem mem_newIdx_values {l values : List Int} {i : Nat}
    (hi : i < values.length) (x : Int) :
    (x ∈ (newIdx l values i).map fun j => values.getD j 0) ↔
      ((∃ j, j ≤ i ∧ j < values.length ∧ values.getD j 0 = x) ∧ x ∉ l) := by
  rw [List.mem_map]
  constructor
  · rintro ⟨j, hj, rfl⟩
    have h := mem_newIdx.mp hj
    exact ⟨⟨j, h.1, by omega, rfl⟩, h.2.2⟩
  · rintro ⟨⟨j, hj1, hj2, rfl⟩, hm⟩
    obtain ⟨a, ha1, ha2, ha3⟩ := exists_firstOcc_le values j hj2
    refine ⟨a, mem_newIdx.mpr ⟨by omega, ha2, by rw [ha3]; exact hm⟩, ha3⟩

theorem newIdx_length_eq_card {l values : List Int}
    (hv : values.Sorted (· ≤ ·)) (hn : values.length ≠ 0) :
    (newIdx l values (values.length - 1)).length =
      (values.toFinset.filter fun v => v ∉ l).card := by
  have hlenmap : (newIdx l values (values.length - 1)).length =
      ((newIdx l values (values.length - 1)).map
        fun j => values.getD j 0).length := (List.length_map ..).symm
  rw [hlenmap]
  have hpw : ((newIdx l values (values.length - 1)).map
      fun j => values.getD j 0).Pairwise (fun a b => b < a) := by
    rw [List.pairwise_map]
    apply List.Pairwise.imp_of_mem ?_ (newIdx_pairwise l values _)
    intro a b ha hb hab
    have ham := mem_newIdx.mp ha
    exact firstOcc_value_lt hv hab ham.2.1 (by omega)
  have hnd : ((newIdx l values (values.length - 1)).map
      fun j => values.getD j 0).Nodup :=
    hpw.imp (fun h => by omega)
  rw [← List.toFinset_card_of_nodup hnd]
  congr 1
  apply Finset.ext
  intro x
  rw [List.mem_toFinset, Finset.mem_filter, List.mem_toFinset,
    mem_newIdx_values (by omega) x]
  constructor
  · rintro ⟨⟨j, _, hj2, rfl⟩, hm⟩
    exact ⟨getD_mem hj2, hm⟩
  · rintro ⟨hmem, hm⟩
    rcases List.mem_iff_getElem.mp hmem with ⟨j, hj, rfl⟩
    exact ⟨⟨j, by omega, hj, List.getD_eq_getElem values 0 hj⟩, hm⟩

theorem emptyBuildFrom_length (values : List Int) :
    ∀ fuel i, (emptyBuildFrom values fuel i).length =
      emptyCountFrom values fuel i := by
  intro fuel
  induction fuel with
  | zero => intro i; rfl
  | succ fuel ih =>
    intro i
    unfold emptyBuildFrom emptyCountFrom
    by_cases hi : i < values.length
    · rw [if_pos hi, if_pos hi]
      by_cases hne : values.getD i 0 ≠ values.getD (i - 1) 0
      · rw [if_pos hne, if_pos hne, List.length_cons, ih]
        omega
      · rw [if_neg hne, if_neg hne, ih]
        omega
    · rw [if_neg hi, if_neg hi]
      rfl

theorem emptyBuildFrom_spec {values : List Int}
    (hv : values.Sorted (· ≤ ·)) :
    ∀ fuel i, 1 ≤ i → values.length ≤ fuel + i →
    (∀ x ∈ emptyBuildFrom values fuel i, values.getD (i - 1) 0 < x) ∧
    (emptyBuildFrom values fuel i).Sorted (· < ·) ∧
    (∀ x ∈ emptyBuildFrom values fuel i, x ∈ values) ∧
    (∀ x ∈ values.drop i,
      x = values.getD (i - 1) 0 ∨ x ∈ emptyBuildFrom values fuel i) := by
  intro fuel
  induction fuel with
  | zero =>
    intro i _ hlen
    unfold emptyBuildFrom
    refine ⟨fun x hx => absurd hx (List.not_mem_nil x),
      List.Pairwise.nil, fun x hx => absurd hx (List.not_mem_nil x), ?_⟩
    rw [List.drop_eq_nil_of_le (by omega)]
    intro x hx
    exact absurd hx (List.not_mem_nil x)
  | succ fuel ih =>
    intro i hi1 hlen
    unfold emptyBuildFrom
    by_cases hi : i < values.length
    · rw [if_pos hi]
      obtain ⟨ihB, ihS, ihM, ihD⟩ := ih (i + 1) (by omega) (by omega)
      have hmono : values.getD (i - 1) 0 ≤ values.getD i 0 :=
        Sorted.getD_mono hv (by omega) hi
      by_cases hne : values.getD i 0 ≠ values.getD (i - 1) 0
      · rw [if_pos hne]
        have hlt : values.getD (i - 1) 0 < values.getD i 0 := by omega
        refine ⟨?_, ?_, ?_, ?_⟩
        · intro x hx
          rcases List.mem_cons.mp hx with rfl | hx
          · exact hlt
          · exact lt_trans hlt (ihB x hx)
        · rw [List.sorted_cons]
          exact ⟨ihB, ihS⟩
        · intro x hx
          rcases List.mem_cons.mp hx with rfl | hx
          · exact getD_mem hi
          · exact ihM x hx
        · intro x hx
          rw [List.drop_eq_getElem_cons hi] at hx
          rcases List.mem_cons.mp hx with rfl | hx
          · right
            rw [← List.getD_eq_getElem values 0 hi]
            exact List.mem_cons_self _ _
          · rcases ihD x hx with h | h
            · right
              rw [h]
              exact List.mem_cons_self _ _
            · right
              exact List.mem_cons_of_mem _ h
      · rw [if_neg hne]
        have heq : values.getD i 0 = values.getD (i - 1) 0 := by omega
        have hids : values.getD (i + 1 - 1) 0 = values.getD i 0 := rfl
        refine ⟨?_, ihS, ihM, ?_⟩
        · intro x hx
          have := ihB x hx
          omega
        · intro x hx
          rw [List.drop_eq_getElem_cons hi] at hx
          rcases List.mem_cons.mp hx with rfl | hx
          · left
            rw [← List.getD_eq_getElem values 0 hi]
            exact heq
          · rcases ihD x hx with h | h
            · left
              omega
            · right
              exact h
    · rw [if_neg hi]
      refine ⟨fun x hx => absurd hx (List.not_mem_nil x),
        List.Pairwise.nil, fun x hx => absurd hx (List.not_mem_nil x), ?_⟩
      rw [List.drop_eq_nil_of_le (by omega)]
      intro x hx
      exact absurd hx (List.not_mem_nil x)

theorem emptyBuild_sorted {values : List Int} (hv : values.Sorted (· ≤ ·)) :
    (values.getD 0 0 :: emptyBuildFrom values values.length 1).Sorted
      (· < ·) := by
  obtain ⟨hB, hS, _, _⟩ := emptyBuildFrom_spec hv values.length 1
    (le_refl 1) (by omega)
  rw [List.sorted_cons]
  exact ⟨hB, hS⟩

theorem emptyBuild_mem {values : List Int} (hv : values.Sorted (· ≤ ·))
    (hn : values.length ≠ 0) (x : Int) :
    x ∈ values.getD 0 0 :: emptyBuildFrom values values.length 1 ↔
      x ∈ values := by
  obtain ⟨_, _, hM, hD⟩ := emptyBuildFrom_spec hv values.length 1
    (le_refl 1) (by omega)
  have hne0 : values ≠ [] := by
    intro h
    rw [h] at hn
    exact hn rfl
  obtain ⟨v, vs, rfl⟩ := List.exists_cons_of_ne_nil hne0
  constructor
  · intro hx
    rcases List.mem_cons.mp hx with rfl | hx
    · exact List.mem_cons_self _ _
    · exact hM x hx
  · intro hx
    rcases List.mem_cons.mp hx with rfl | hx
    · exact List.mem_cons_self _ _
    · rcases hD x hx with h | h
      · rw [h]
        exact List.mem_cons_self _ _
      · exact List.mem_cons_of_mem _ h

theorem emptyBuild_count {values : List Int} (hv : values.Sorted (· ≤ ·))
    (hn : values.length ≠ 0) :
    1 + emptyCountFrom values values.length 1 = values.toFinset.card := by
  have hnd : (values.getD 0 0 ::
      emptyBuildFrom values values.length 1).Nodup :=
    (emptyBuild_sorted hv).imp (fun h => ne_of_lt h)
  have hfs : (values.getD 0 0 ::
      emptyBuildFrom values values.length 1).toFinset =
      values.toFinset := by
    apply Finset.ext
    intro x
    rw [List.mem_toFinset, List.mem_toFinset]
    exact emptyBuild_mem hv hn x
  have := List.toFinset_card_of_nodup hnd
  rw [hfs] at this
  rw [this, List.length_cons, emptyBuildFrom_length]
  omega

theorem insertSorted_calls_general (l values : List Int)
    (h0 : values.length ≠ 0) (hl0 : l.length ≠ 0) :
    (insertSorted l values).incrementSizeCalls =
      [(countLoop l values (values.length - 1)
        { curPos := l.length, nToInsert := 0, pairs := [] }).nToInsert] ∧
    (insertSorted l values).returnValue =
      (countLoop l values (values.length - 1)
        { curPos := l.length, nToInsert := 0, pairs := [] }).nToInsert := by
  unfold insertSorted
  rw [if_neg h0, if_neg hl0]
  dsimp only
  constructor
  · split
    · rfl
    · split
      · rfl
      · split
        · rfl
        · rfl
  · split
    · rename_i h1
      exact h1.symm
    · split
      · rfl
      · split
        · rfl
        · rfl

/-- C3: every call `insertSorted(ptr, size, values, nVals, callbacks)` with
`ptr` sorted and `values` pre-sorted invokes `callbacks.incrementSize`
exactly once, with argument equal to the number of batch values genuinely
new to the array (the number of distinct batch values absent from the
array; 0 when `nVals = 0` or when every batch value is already present),
and the call returns that same number. -/
theorem C3_insertSorted_incrementSize (l values : List Int)
    (hl : l.Sorted (· ≤ ·)) (hv : values.Sorted (· ≤ ·)) :
    (insertSorted l values).incrementSizeCalls =
      [(values.toFinset.filter fun v => v ∉ l).card] ∧
    (insertSorted l values).returnValue =
      (values.toFinset.filter fun v => v ∉ l).card := by
  by_cases h0 : values.length = 0
  · have hvnil : values = [] := List.length_eq_zero.mp h0
    subst hvnil
    exact ⟨rfl, rfl⟩
  · by_cases hl0 : l.length = 0
    · have hlnil : l = [] := List.length_eq_zero.mp hl0
      subst hlnil
      have hcard : ((values.toFinset.filter
          fun v => v ∉ ([] : List Int))).card = values.toFinset.card := by
        congr 1
        apply Finset.filter_true_of_mem
        intro x _
        exact List.not_mem_nil x
      rw [hcard, ← emptyBuild_count hv h0]
      unfold insertSorted
      rw [if_neg h0, if_pos hl0]
      exact ⟨rfl, rfl⟩
    · obtain ⟨hc, hr⟩ := insertSorted_calls_general l values h0 hl0
      have hcount := (countLoop_spec hl hv (values.length - 1)
        { curPos := l.length, nToInsert := 0, pairs := [] }
        (by omega) (lowerB_le_length l _) (le_refl _)).1
      rw [hc, hr, hcount, Nat.zero_add,
        newIdx_length_eq_card hv h0]
      exact ⟨rfl, rfl⟩

/-- Witness for C3 on a concrete input: array `[1, 3]`, batch `[2, 3, 4]`;
the two genuinely new values are `2` and `4`. -/
theorem C3_insertSorted_incrementSize_witness :
    ([1, 3] : List Int).Sorted (· ≤ ·) ∧
    ([2, 3, 4] : List Int).Sorted (· ≤ ·) ∧
    ((insertSorted [1, 3] [2, 3, 4]).incrementSizeCalls =
      [(([2, 3, 4] : List Int).toFinset.filter
        fun v => v ∉ ([1, 3] : List Int)).card] ∧
     (insertSorted [1, 3] [2, 3, 4]).returnValue =
      (([2, 3, 4] : List Int).toFinset.filter
        fun v => v ∉ ([1, 3] : List Int)).card) :=
  ⟨by decide, by decide,
    C3_insertSorted_incrementSize [1, 3] [2, 3, 4] (by decide) (by decide)⟩

theorem shiftUp_set_struct (l junk tail : List Int) (prevPos ip : Nat)
    (v : Int) (hip : ip ≤ prevPos) (hpl : prevPos ≤ l.length)
    (hj : 1 ≤ junk.length) :
    (arrayManipulation.shiftUp (l.take prevPos ++ junk ++ tail) prevPos ip
        junk.length).set (ip + (junk.length - 1)) v =
      l.take ip ++
        ((l.take prevPos ++ junk ++ tail).drop ip).take (junk.length - 1) ++
        (v :: ((l.take prevPos).drop ip ++ tail)) := by
  have hTl : (l.take prevPos).length = prevPos := by
    rw [List.length_take]
    omega
  have hbufLen : (l.take prevPos ++ junk ++ tail).length =
      prevPos + junk.length + tail.length := by
    rw [List.length_append, List.length_append, hTl]
  have hAl : (l.take ip).length = ip := by
    rw [List.length_take]
    omega
  have hBl : (((l.take prevPos ++ junk ++ tail).drop ip).take
      (junk.length - 1)).length = junk.length - 1 := by
    rw [List.length_take, List.length_drop, hbufLen]
    omega
  have hABl : (l.take ip ++
      ((l.take prevPos ++ junk ++ tail).drop ip).take
        (junk.length - 1)).length = ip + (junk.length - 1) := by
    rw [List.length_append, hAl, hBl]
  have hSl : ((l.take prevPos).drop ip).length = prevPos - ip := by
    rw [List.length_drop, hTl]
  have hshl : (arrayManipulation.shiftUp (l.take prevPos ++ junk ++ tail)
      prevPos ip junk.length).length =
      prevPos + junk.length + tail.length := by
    unfold arrayManipulation.shiftUp
    rw [List.length_map, List.length_range, hbufLen]
  apply List.ext_getElem
  · rw [List.length_set, hshl, List.length_append, hABl, List.length_cons,
      List.length_append, hSl]
    omega
  · intro p hp1 hp2
    have hpN : p < prevPos + junk.length + tail.length := by
      have := hp1
      rw [List.length_set, hshl] at this
      exact this
    rw [← List.getD_eq_getElem _ 0 hp1, ← List.getD_eq_getElem _ 0 hp2]
    clear hp1 hp2
    by_cases hpv : p = ip + (junk.length - 1)
    · subst hpv
      have hb1 : ip + (junk.length - 1) <
          (arrayManipulation.shiftUp (l.take prevPos ++ junk ++ tail)
            prevPos ip junk.length).length := by
        rw [hshl]
        omega
      rw [AuxList.getD_set_self hb1]
      have hb2 : (l.take ip ++
          ((l.take prevPos ++ junk ++ tail).drop ip).take
            (junk.length - 1)).length ≤ ip + (junk.length - 1) := by
        rw [hABl]
      rw [AuxList.getD_append_right hb2, hABl]
      have hz : ip + (junk.length - 1) - (ip + (junk.length - 1)) = 0 := by
        omega
      rw [hz]
      rfl
    · rw [AuxList.getD_set_of_ne (fun h => hpv h.symm)]
      unfold arrayManipulation.shiftUp
      have hpr : p < (l.take prevPos ++ junk ++ tail).length := by
        rw [hbufLen]
        omega
      rw [AuxList.getD_range_map hpr]
      by_cases hcond : ip + junk.length ≤ p ∧ p < prevPos + junk.length
      · rw [if_pos hcond]
        have hb3 : p - junk.length <
            (l.take prevPos ++ junk).length := by
          rw [List.length_append, hTl]
          omega
        have hb4 : p - junk.length < (l.take prevPos).length := by
          rw [hTl]
          omega
        rw [AuxList.getD_append_left hb3, AuxList.getD_append_left hb4,
          AuxList.getD_take (show p - junk.length < prevPos by omega)]
        have hb5 : (l.take ip ++
            ((l.take prevPos ++ junk ++ tail).drop ip).take
              (junk.length - 1)).length ≤ p := by
          rw [hABl]
          omega
        rw [AuxList.getD_append_right hb5, hABl]
        have hq : p - (ip + (junk.length - 1)) =
            (p - (ip + (junk.length - 1)) - 1) + 1 := by omega
        rw [hq, List.getD_cons_succ]
        have hb6 : p - (ip + (junk.length - 1)) - 1 <
            ((l.take prevPos).drop ip).length := by
          rw [hSl]
          omega
        rw [AuxList.getD_append_left hb6]
        rw [AuxList.getD_drop,
          AuxList.getD_take (show ip + (p - (ip + (junk.length - 1)) - 1)
            < prevPos by omega)]
        have hidx : ip + (p - (ip + (junk.length - 1)) - 1) =
            p - junk.length := by
          omega
        rw [hidx]
      · rw [if_neg hcond]
        push_neg at hcond
        by_cases hp_lo : p < ip
        · have hb3 : p < (l.take prevPos ++ junk).length := by
            rw [List.length_append, hTl]
            omega
          have hb4 : p < (l.take prevPos).length := by
            rw [hTl]
            omega
          rw [AuxList.getD_append_left hb3, AuxList.getD_append_left hb4,
            AuxList.getD_take (show p < prevPos by omega)]
          have hb5 : p < (l.take ip ++
              ((l.take prevPos ++ junk ++ tail).drop ip).take
                (junk.length - 1)).length := by
            rw [hABl]
            omega
          rw [AuxList.getD_append_left hb5]
          have hb6 : p < (l.take ip).length := by
            rw [hAl]
            omega
          rw [AuxList.getD_append_left hb6,
            AuxList.getD_take (show p < ip by omega)]
        · by_cases hp_mid : p < ip + (junk.length - 1)
          · have hb5 : p < (l.take ip ++
                ((l.take prevPos ++ junk ++ tail).drop ip).take
                  (junk.length - 1)).length := by
              rw [hABl]
              omega
            rw [AuxList.getD_append_left hb5]
            have hb6 : (l.take ip).length ≤ p := by
              rw [hAl]
              omega
            rw [AuxList.getD_append_right hb6, hAl]
            rw [AuxList.getD_take (show p - ip < junk.length - 1 by omega),
              AuxList.getD_drop]
            have hidx : ip + (p - ip) = p := by omega
            rw [hidx]
          · have hp_hi : prevPos + junk.length ≤ p := hcond (by omega)
            have hb3 : (l.take prevPos ++ junk).length ≤ p := by
              rw [List.length_append, hTl]
              omega
            rw [AuxList.getD_append_right hb3]
            rw [List.length_append, hTl]
            have hb5 : (l.take ip ++
                ((l.take prevPos ++ junk ++ tail).drop ip).take
                  (junk.length - 1)).length ≤ p := by
              rw [hABl]
              omega
            rw [AuxList.getD_append_right hb5, hABl]
            have hq : p - (ip + (junk.length - 1)) =
                (p - (ip + (junk.length - 1)) - 1) + 1 := by omega
            rw [hq, List.getD_cons_succ]
            have hb6 : ((l.take prevPos).drop ip).length ≤
                p - (ip + (junk.length - 1)) - 1 := by
              rw [hSl]
              omega
            rw [AuxList.getD_append_right hb6, hSl]
            have hidx : p - (ip + (junk.length - 1)) - 1 - (prevPos - ip) =
                p - (prevPos + junk.length) := by
              omega
            rw [hidx]

theorem placeSteps_nil (l : List Int) (p : Nat) (t : List Int) :
    placeSteps l [] p t = (t, p) := rfl

theorem placeSteps_cons (l : List Int) (v : Int) (pp : Nat)
    (rest : List (Int × Nat)) (p : Nat) (t : List Int) :
    placeSteps l ((v, pp) :: rest) p t =
      placeSteps l rest pp (v :: ((l.take p).drop pp ++ t)) := rfl

theorem placeSteps_append (l : List Int) :
    ∀ (P Q : List (Int × Nat)) (p : Nat) (t : List Int),
    placeSteps l (P ++ Q) p t =
      placeSteps l Q (placeSteps l P p t).2 (placeSteps l P p t).1 := by
  intro P
  induction P with
  | nil => intro Q p t; rfl
  | cons hd rest ih =>
    intro Q p t
    obtain ⟨v, pp⟩ := hd
    rw [List.cons_append, placeSteps_cons, placeSteps_cons, ih]

theorem placeAbs_eq_steps (l : List Int) :
    ∀ (P : List (Int × Nat)) (p : Nat) (t : List Int),
    placeAbs l P p t =
      l.take (placeSteps l P p t).2 ++ (placeSteps l P p t).1 := by
  intro P
  induction P with
  | nil => intro p t; rfl
  | cons hd rest ih =>
    intro p t
    obtain ⟨v, pp⟩ := hd
    rw [placeSteps_cons]
    exact ih pp _

theorem phase1_cons (values : List Int) (m vp ip k : Nat)
    (rest : List (Nat × Nat)) (buf : List Int) (prevPos : Nat) :
    phase1 values m ((vp, ip) :: rest) k buf prevPos =
      phase1 values m rest (k + 1)
        ((arrayManipulation.shiftUp buf prevPos ip (m - k)).set
          (ip + (m - (k + 1))) (values.getD vp 0)) ip := rfl

theorem phase1_spec (l values : List Int) (m : Nat) :
    ∀ (P : List (Nat × Nat)) (k : Nat) (junk tail : List Int)
      (prevPos : Nat),
    prevPos ≤ l.length →
    junk.length + k = m →
    k + P.length ≤ m →
    (∀ pr ∈ P, pr.2 ≤ prevPos) →
    P.Pairwise (fun a b => b.2 ≤ a.2) →
    ∃ junk2 : List Int, junk2.length + (k + P.length) = m ∧
      phase1 values m P k (l.take prevPos ++ junk ++ tail) prevPos =
        (l.take (placeSteps l (P.map fun pr => (values.getD pr.1 0, pr.2))
            prevPos tail).2 ++ junk2 ++
          (placeSteps l (P.map fun pr => (values.getD pr.1 0, pr.2))
            prevPos tail).1,
         (placeSteps l (P.map fun pr => (values.getD pr.1 0, pr.2))
            prevPos tail).2) := by
  intro P
  induction P with
  | nil =>
    intro k junk tail prevPos _ hjk _ _ _
    exact ⟨junk, by rw [List.length_nil]; omega, rfl⟩
  | cons hd rest ih =>
    intro k junk tail prevPos hp hjk hkP hmem hpw
    obtain ⟨vp, ip⟩ := hd
    have hip : ip ≤ prevPos := hmem (vp, ip) (List.mem_cons_self _ _)
    have hj1 : 1 ≤ junk.length := by
      rw [List.length_cons] at hkP
      omega
    rw [phase1_cons,
      (show m - k = junk.length by omega),
      (show ip + (m - (k + 1)) = ip + (junk.length - 1) by omega),
      shiftUp_set_struct l junk tail prevPos ip (values.getD vp 0)
        hip hp hj1]
    have hjunk1len : (((l.take prevPos ++ junk ++ tail).drop ip).take
        (junk.length - 1)).length = junk.length - 1 := by
      rw [List.length_take, List.length_drop, List.length_append,
        List.length_append, List.length_take]
      omega
    obtain ⟨junk2, hlen2, heq⟩ := ih (k + 1)
      (((l.take prevPos ++ junk ++ tail).drop ip).take (junk.length - 1))
      (values.getD vp 0 :: ((l.take prevPos).drop ip ++ tail)) ip
      (le_trans hip hp)
      (by rw [hjunk1len]; omega)
      (by rw [List.length_cons] at hkP; omega)
      (fun pr hpr => (List.pairwise_cons.mp hpw).1 pr hpr)
      (List.pairwise_cons.mp hpw).2
    rw [heq, List.map_cons, placeSteps_cons]
    refine ⟨junk2, ?_, rfl⟩
    rw [List.length_cons]
    omega

theorem Sorted.getD_strict_mono {l : List Int} (h : l.Sorted (· < ·))
    {i j : Nat} (hij : i < j) (hj : j < l.length) :
    l.getD i 0 < l.getD j 0 := by
  have hi : i < l.length := lt_trans hij hj
  rw [l.getD_eq_getElem 0 hi, l.getD_eq_getElem 0 hj]
  exact List.pairwise_iff_getElem.mp h i j hi hj hij

theorem le_getD_of_lowerB_le {l : List Int} (hs : l.Sorted (· ≤ ·))
    {v : Int} {j : Nat} (h1 : lowerB l v ≤ j) (h2 : j < l.length) :
    v ≤ l.getD j 0 := by
  by_contra habs
  push_neg at habs
  have := (lowerB_lt_iff hs v h2).mp habs
  omega

theorem mem_take_iff_getD {l : List Int} {c : Nat} {x : Int} :
    x ∈ l.take c ↔ ∃ j, j < c ∧ j < l.length ∧ l.getD j 0 = x := by
  constructor
  · intro hx
    rcases List.mem_iff_getElem.mp hx with ⟨j, hj, rfl⟩
    rw [List.length_take] at hj
    refine ⟨j, by omega, by omega, ?_⟩
    rw [← AuxList.getD_take (show j < c by omega),
      List.getD_eq_getElem _ 0 (show j < (l.take c).length by
        rw [List.length_take]; omega)]
  · rintro ⟨j, hjc, hjl, rfl⟩
    rw [← AuxList.getD_take hjc]
    exact getD_mem (by rw [List.length_take]; omega)

theorem mem_take_drop_iff_getD {l : List Int} {a b : Nat} {x : Int} :
    x ∈ (l.take b).drop a ↔
      ∃ j, a ≤ j ∧ j < b ∧ j < l.length ∧ l.getD j 0 = x := by
  constructor
  · intro hx
    rcases List.mem_iff_getElem.mp hx with ⟨j, hj, rfl⟩
    have hj2 := hj
    rw [List.length_drop, List.length_take] at hj2
    refine ⟨a + j, by omega, by omega, by omega, ?_⟩
    rw [← List.getD_eq_getElem _ 0 hj, AuxList.getD_drop,
      AuxList.getD_take (show a + j < b by omega)]
  · rintro ⟨j, hja, hjb, hjl, rfl⟩
    have : l.getD j 0 = ((l.take b).drop a).getD (j - a) 0 := by
      rw [AuxList.getD_drop, AuxList.getD_take
        (show a + (j - a) < b by omega)]
      congr 1
      omega
    rw [this]
    exact getD_mem (by rw [List.length_drop, List.length_take]; omega)

theorem placeSteps_props {l : List Int} (hl : l.Sorted (· < ·)) :
    ∀ (Q : List (Int × Nat)) (prevPos : Nat) (tail : List Int),
    prevPos ≤ l.length →
    (∀ q ∈ Q, q.2 = lowerB l q.1 ∧ q.1 ∉ l) →
    Q.Pairwise (fun a b => b.1 < a.1) →
    (∀ q ∈ Q, lowerB l q.1 ≤ prevPos) →
    tail.Sorted (· < ·) →
    (∀ x ∈ tail, ∀ j, j < prevPos → l.getD j 0 < x) →
    (∀ q ∈ Q, ∀ x ∈ tail, q.1 < x) →
    (l.take (placeSteps l Q prevPos tail).2 ++
      (placeSteps l Q prevPos tail).1).Sorted (· < ·) ∧
    (∀ x, x ∈ l.take (placeSteps l Q prevPos tail).2 ++
        (placeSteps l Q prevPos tail).1 ↔
      x ∈ l.take prevPos ∨ x ∈ tail ∨ ∃ q ∈ Q, x = q.1) := by
  have hle : l.Sorted (· ≤ ·) := hl.imp (fun h => le_of_lt h)
  intro Q
  induction Q with
  | nil =>
    intro prevPos tail hp _ _ _ hT1 hT2 _
    rw [placeSteps_nil]
    constructor
    · refine List.pairwise_append.mpr
        ⟨List.Pairwise.sublist (List.take_sublist _ _) hl, hT1, ?_⟩
      intro y hy x hx
      rcases mem_take_iff_getD.mp hy with ⟨j, hjc, hjl, rfl⟩
      exact hT2 x hx j hjc
    · intro x
      rw [List.mem_append]
      constructor
      · rintro (h | h)
        · exact Or.inl h
        · exact Or.inr (Or.inl h)
      · rintro (h | h | ⟨q, hq, _⟩)
        · exact Or.inl h
        · exact Or.inr h
        · exact absurd hq (List.not_mem_nil q)
  | cons hd rest ih =>
    intro prevPos tail hp hQ hpw hQb hT1 hT2 hT3
    obtain ⟨v, pp⟩ := hd
    obtain ⟨hpp, hvl⟩ := hQ (v, pp) (List.mem_cons_self _ _)
    dsimp only at hpp hvl
    have hppP : pp ≤ prevPos := hpp ▸ hQb (v, pp) (List.mem_cons_self _ _)
    have hppL : pp ≤ l.length := hpp ▸ lowerB_le_length l v
    have hslice : ∀ x ∈ (l.take prevPos).drop pp,
        v < x ∧ ∀ y ∈ tail, x < y := by
      intro x hx
      rcases mem_take_drop_iff_getD.mp hx with ⟨j, hja, hjb, hjl, rfl⟩
      constructor
      · have hvle : v ≤ l.getD j 0 :=
          le_getD_of_lowerB_le hle (hpp ▸ hja) hjl
        have hne : l.getD j 0 ≠ v := by
          intro habs
          exact hvl (habs ▸ getD_mem hjl)
        omega
      · intro y hy
        exact hT2 y hy j hjb
    have htail1 : (v :: ((l.take prevPos).drop pp ++ tail)).Sorted
        (· < ·) := by
      rw [List.sorted_cons]
      constructor
      · intro b hb
        rcases List.mem_append.mp hb with hb | hb
        · exact (hslice b hb).1
        · exact hT3 (v, pp) (List.mem_cons_self _ _) b hb
      · refine List.pairwise_append.mpr ⟨List.Pairwise.sublist
          (List.Sublist.trans (List.drop_sublist _ _)
            (List.take_sublist _ _)) hl, hT1, ?_⟩
        intro x hx y hy
        exact (hslice x hx).2 y hy
    have htail2 : ∀ x ∈ v :: ((l.take prevPos).drop pp ++ tail),
        ∀ j, j < pp → l.getD j 0 < x := by
      intro x hx j hj
      have hjl : j < l.length := by omega
      rcases List.mem_cons.mp hx with rfl | hx
      · exact (lowerB_lt_iff hle x hjl).mpr (by omega)
      · rcases List.mem_append.mp hx with hx | hx
        · rcases mem_take_drop_iff_getD.mp hx with ⟨j2, hja, hjb, hjl2, rfl⟩
          exact Sorted.getD_strict_mono hl (by omega) hjl2
        · exact hT2 x hx j (by omega)
    have htail3 : ∀ q ∈ rest, ∀ x ∈ v :: ((l.take prevPos).drop pp ++ tail),
        q.1 < x := by
      intro q hq x hx
      have hqv : q.1 < v := (List.pairwise_cons.mp hpw).1 q hq
      rcases List.mem_cons.mp hx with rfl | hx
      · exact hqv
      · rcases List.mem_append.mp hx with hx | hx
        · exact lt_trans hqv (hslice x hx).1
        · exact hT3 q (List.mem_cons_of_mem _ hq) x hx
    obtain ⟨ihS, ihM⟩ := ih pp (v :: ((l.take prevPos).drop pp ++ tail))
      hppL
      (fun q hq => hQ q (List.mem_cons_of_mem _ hq))
      (List.pairwise_cons.mp hpw).2
      (fun q hq => hpp ▸ lowerB_mono
        (le_of_lt ((List.pairwise_cons.mp hpw).1 q hq)))
      htail1 htail2 htail3
    rw [placeSteps_cons]
    refine ⟨ihS, ?_⟩
    intro x
    rw [ihM x]
    constructor
    · rintro (h | h | h)
      · left
        rcases mem_take_iff_getD.mp h with ⟨j, hjc, hjl, rfl⟩
        exact mem_take_iff_getD.mpr ⟨j, by omega, hjl, rfl⟩
      · rcases List.mem_cons.mp h with rfl | h
        · right; right
          exact ⟨(x, pp), List.mem_cons_self _ _, rfl⟩
        · rcases List.mem_append.mp h with h | h
          · left
            rcases mem_take_drop_iff_getD.mp h with ⟨j, _, hjb, hjl, rfl⟩
            exact mem_take_iff_getD.mpr ⟨j, hjb, hjl, rfl⟩
          · right; left
            exact h
      · right; right
        obtain ⟨q, hq, hxq⟩ := h
        exact ⟨q, List.mem_cons_of_mem _ hq, hxq⟩
    · rintro (h | h | h)
      · rcases mem_take_iff_getD.mp h with ⟨j, hjc, hjl, rfl⟩
        by_cases hjpp : j < pp
        · left
          exact mem_take_iff_getD.mpr ⟨j, hjpp, hjl, rfl⟩
        · right; left
          exact List.mem_cons_of_mem _ (List.mem_append.mpr (Or.inl
            (mem_take_drop_iff_getD.mpr ⟨j, by omega, hjc, hjl, rfl⟩)))
      · right; left
        exact List.mem_cons_of_mem _ (List.mem_append.mpr (Or.inr h))
      · obtain ⟨q, hq, hxq⟩ := h
        rcases List.mem_cons.mp hq with rfl | hq
        · right; left
          rw [hxq]
          exact List.mem_cons_self _ _
        · right; right
          exact ⟨q, hq, hxq⟩

theorem mem_remIdx {l values : List Int} {i : Nat} {b : Int} {j : Nat} :
    j ∈ remIdx l values i b ↔ j ≤ i ∧ firstOccB values j = true ∧
      values.getD j 0 ∉ l ∧ values.getD j 0 < b := by
  unfold remIdx
  rw [List.mem_filter, mem_newIdx]
  simp only [decide_eq_true_eq]
  constructor
  · rintro ⟨⟨h1, h2, h3⟩, h4⟩
    exact ⟨h1, h2, h3, h4⟩
  · rintro ⟨h1, h2, h3, h4⟩
    exact ⟨⟨h1, h2, h3⟩, h4⟩

theorem remIdx_succ (l values : List Int) (i : Nat) (b : Int) :
    remIdx l values (i + 1) b =
      (if firstOccB values (i + 1) = true ∧ values.getD (i + 1) 0 ∉ l ∧
          values.getD (i + 1) 0 < b then [i + 1] else []) ++
        remIdx l values i b := by
  unfold remIdx
  rw [newIdx_succ, List.filter_append]
  congr 1
  by_cases h1 : firstOccB values (i + 1) = true ∧
      values.getD (i + 1) 0 ∉ l
  · rw [if_pos h1]
    by_cases h2 : values.getD (i + 1) 0 < b
    · rw [if_pos ⟨h1.1, h1.2, h2⟩, List.filter_singleton,
        decide_eq_true h2, cond_true]
    · rw [if_neg (fun hh => h2 hh.2.2), List.filter_singleton,
        decide_eq_false h2, cond_false]
  · rw [if_neg h1, if_neg (fun hh => h1 ⟨hh.1, hh.2.1⟩)]
    rfl

theorem remIdx_pairwise (l values : List Int) (i : Nat) (b : Int) :
    (remIdx l values i b).Pairwise (fun a b => b < a) :=
  List.Pairwise.sublist (List.filter_sublist _) (newIdx_pairwise l values i)

theorem firstOcc_unique {values : List Int} (hv : values.Sorted (· ≤ ·))
    {x y : Nat} (hx : firstOccB values x = true)
    (hy : firstOccB values y = true) (hxl : x < values.length)
    (hyl : y < values.length)
    (hval : values.getD x 0 = values.getD y 0) : x = y := by
  rcases lt_trichotomy x y with h | h | h
  · have := firstOcc_value_lt hv h hy hyl
    omega
  · exact h
  · have := firstOcc_value_lt hv h hx hxl
    omega

theorem remIdx_step_insert {l values : List Int}
    (hv : values.Sorted (· ≤ ·)) {i c : Nat}
    (hic : i < c) (hcn : c < values.length) (hvnl : values.getD i 0 ∉ l)
    (hvlt : values.getD i 0 < values.getD c 0) :
    ∃ jf, values.getD jf 0 = values.getD i 0 ∧
      remIdx l values i (values.getD c 0) =
        jf :: remIdx l values (i - 1) (values.getD i 0) := by
  obtain ⟨jf, hjf_le, hjf_occ, hjf_val⟩ := exists_firstOcc_le values i
    (by omega)
  refine ⟨jf, hjf_val, ?_⟩
  have hmemL : ∀ x, x ∈ remIdx l values i (values.getD c 0) ↔
      x ∈ jf :: remIdx l values (i - 1) (values.getD i 0) := by
    intro x
    rw [mem_remIdx, List.mem_cons, mem_remIdx]
    constructor
    · rintro ⟨h1, h2, h3, h4⟩
      by_cases hxv : values.getD x 0 = values.getD i 0
      · left
        exact firstOcc_unique hv h2 hjf_occ (by omega) (by omega)
          (by rw [hxv, hjf_val])
      · right
        have hxle : values.getD x 0 ≤ values.getD i 0 :=
          Sorted.getD_mono hv h1 (by omega)
        have hxi : x ≠ i := fun hh => hxv (by rw [hh])
        refine ⟨by omega, h2, h3, by omega⟩
    · rintro (rfl | ⟨h1, h2, h3, h4⟩)
      · exact ⟨hjf_le, hjf_occ, by rw [hjf_val]; exact hvnl,
          by rw [hjf_val]; exact hvlt⟩
      · exact ⟨by omega, h2, h3, by omega⟩
  have hpL : (remIdx l values i (values.getD c 0)).Pairwise
      (fun a b => b < a) := remIdx_pairwise l values i _
  have hpR : (jf :: remIdx l values (i - 1) (values.getD i 0)).Pairwise
      (fun a b => b < a) := by
    rw [List.pairwise_cons]
    refine ⟨?_, remIdx_pairwise l values (i - 1) _⟩
    intro b hb
    obtain ⟨hb1, _, _, hb4⟩ := mem_remIdx.mp hb
    by_contra habs
    push_neg at habs
    have := Sorted.getD_mono hv habs (by omega)
    omega
  have hndL : (remIdx l values i (values.getD c 0)).Nodup :=
    hpL.imp (fun h => by omega)
  have hndR : (jf :: remIdx l values (i - 1) (values.getD i 0)).Nodup :=
    hpR.imp (fun h => by omega)
  have hperm : List.Perm (remIdx l values i (values.getD c 0))
      (jf :: remIdx l values (i - 1) (values.getD i 0)) := by
    apply List.perm_of_nodup_nodup_toFinset_eq hndL hndR
    apply Finset.ext
    intro x
    rw [List.mem_toFinset, List.mem_toFinset]
    exact hmemL x
  haveI : IsAntisymm Nat (fun a b => b < a) :=
    ⟨fun a b h1 h2 => by omega⟩
  exact List.eq_of_perm_of_sorted hperm hpL hpR

theorem remIdx_zero_cond {l values : List Int} {b : Int}
    (h : remIdx l values 0 b ≠ []) :
    values.getD 0 0 ∉ l ∧ values.getD 0 0 < b := by
  obtain ⟨x, hx⟩ := List.exists_mem_of_ne_nil _ h
  obtain ⟨h1, _, h3, h4⟩ := mem_remIdx.mp hx
  have : x = 0 := by omega
  subst this
  exact ⟨h3, h4⟩

theorem phase2_succ (values : List Int) (m fuel : Nat) (buf : List Int)
    (i prevPos nInserted : Nat) :
    phase2 values m (fuel + 1) buf i prevPos nInserted =
      if values.getD i 0 = values.getD (i + 1) 0 then
        if i = 0 then buf
        else phase2 values m fuel buf (i - 1) prevPos nInserted
      else
        let pos := find (buf.take prevPos) (values.getD i 0)
        if pos ≠ prevPos ∧ buf.getD pos 0 = values.getD i 0 then
          if i = 0 then buf
          else phase2 values m fuel buf (i - 1) prevPos nInserted
        else
          let buf1 := arrayManipulation.shiftUp buf prevPos pos
            (m - nInserted)
          let buf2 := buf1.set (pos + (m - (nInserted + 1)))
            (values.getD i 0)
          if nInserted + 1 = m then buf2
          else if i = 0 then buf2
          else phase2 values m fuel buf2 (i - 1) pos (nInserted + 1) := rfl

theorem phase2_spec {l values : List Int} (hle : l.Sorted (· ≤ ·))
    (hv : values.Sorted (· ≤ ·)) (m : Nat) :
    ∀ (fuel i c nInserted : Nat) (junk tail : List Int),
    i + 1 ≤ fuel →
    i < c → c < values.length →
    values.getD c 0 ∉ l →
    (values.getD (i + 1) 0 = values.getD c 0 ∨
      values.getD (i + 1) 0 ∈ l) →
    junk.length + nInserted = m →
    nInserted + (remIdx l values i (values.getD c 0)).length = m →
    nInserted < m →
    phase2 values m fuel
        (l.take (lowerB l (values.getD c 0)) ++ junk ++ tail) i
        (lowerB l (values.getD c 0)) nInserted =
      l.take (placeSteps l ((remIdx l values i (values.getD c 0)).map
          fun j => (values.getD j 0, lowerB l (values.getD j 0)))
        (lowerB l (values.getD c 0)) tail).2 ++
      (placeSteps l ((remIdx l values i (values.getD c 0)).map
          fun j => (values.getD j 0, lowerB l (values.getD j 0)))
        (lowerB l (values.getD c 0)) tail).1 := by
  intro fuel
  induction fuel with
  | zero =>
    intro i c nInserted junk tail h1 _ _ _ _ _ _ _
    omega
  | succ fuel ih =>
    intro i c nInserted junk tail hfuel hic hcn hvcl hB2 hB3 hB4 hB6
    rw [phase2_succ]
    have hpPl : lowerB l (values.getD c 0) ≤ l.length :=
      lowerB_le_length l _
    have htake_len : (l.take (lowerB l (values.getD c 0))).length =
        lowerB l (values.getD c 0) := by
      rw [List.length_take]
      omega
    have hbtake : (l.take (lowerB l (values.getD c 0)) ++ junk ++
        tail).take (lowerB l (values.getD c 0)) =
        l.take (lowerB l (values.getD c 0)) := by
      rw [List.append_assoc, List.take_left' htake_len]
    by_cases hdup : values.getD i 0 = values.getD (i + 1) 0
    · rw [if_pos hdup]
      by_cases hi0 : i = 0
      · exfalso
        subst hi0
        have hne : remIdx l values 0 (values.getD c 0) ≠ [] := by
          intro hnil
          rw [hnil, List.length_nil] at hB4
          omega
        obtain ⟨h0nl, h0lt⟩ := remIdx_zero_cond hne
        rcases hB2 with h | h
        · rw [hdup, h] at h0lt
          exact lt_irrefl _ h0lt
        · rw [hdup] at h0nl
          exact h0nl h
      · obtain ⟨i2, rfl⟩ : ∃ i2, i = i2 + 1 := ⟨i - 1, by omega⟩
        rw [if_neg hi0]
        have hcontra : ¬(firstOccB values (i2 + 1) = true ∧
            values.getD (i2 + 1) 0 ∉ l ∧
            values.getD (i2 + 1) 0 < values.getD c 0) := by
          rcases hB2 with h | h
          · intro hh
            apply absurd hh.2.2
            rw [hdup, h]
            exact lt_irrefl _
          · intro hh
            exact hh.2.1 (by rw [hdup]; exact h)
        have hstep : remIdx l values (i2 + 1) (values.getD c 0) =
            remIdx l values i2 (values.getD c 0) := by
          rw [remIdx_succ, if_neg hcontra, List.nil_append]
        have hB2n : values.getD (i2 + 1) 0 = values.getD c 0 ∨
            values.getD (i2 + 1) 0 ∈ l := by
          rw [hdup]
          exact hB2
        have hB4n : nInserted +
            (remIdx l values i2 (values.getD c 0)).length = m := by
          rw [hstep] at hB4
          exact hB4
        rw [hstep]
        exact ih i2 c nInserted junk tail (by omega) (by omega) hcn hvcl
          hB2n hB3 hB4n hB6
    · rw [if_neg hdup]
      dsimp only
      have hvlt : values.getD i 0 < values.getD c 0 := by
        have h1 : values.getD i 0 ≤ values.getD (i + 1) 0 :=
          Sorted.getD_mono hv (by omega) (by omega)
        have h2 : values.getD (i + 1) 0 ≤ values.getD c 0 :=
          Sorted.getD_mono hv (by omega) hcn
        omega
      have hfind : find ((l.take (lowerB l (values.getD c 0)) ++ junk ++
          tail).take (lowerB l (values.getD c 0)))
          (values.getD i 0) = lowerB l (values.getD i 0) := by
        rw [hbtake]
        exact find_take_eq hle (lowerB_mono (le_of_lt hvlt))
      rw [hfind]
      have hgetD_pref : ∀ t, t < lowerB l (values.getD c 0) →
          (l.take (lowerB l (values.getD c 0)) ++ junk ++ tail).getD t 0 =
          l.getD t 0 := by
        intro t ht
        rw [AuxList.getD_append_left, AuxList.getD_append_left,
          AuxList.getD_take ht]
        · rw [htake_len]
          omega
        · rw [List.length_append, htake_len]
          omega
      by_cases hmem : values.getD i 0 ∈ l
      · obtain ⟨hlbl, hlbv⟩ := (mem_iff_lowerB hle _).mp hmem
        have hposlt : lowerB l (values.getD i 0) <
            lowerB l (values.getD c 0) := by
          apply (lowerB_lt_iff hle _ hlbl).mp
          rw [hlbv]
          exact hvlt
        have hbufv : (l.take (lowerB l (values.getD c 0)) ++ junk ++
            tail).getD (lowerB l (values.getD i 0)) 0 =
            values.getD i 0 := by
          rw [hgetD_pref _ hposlt]
          exact hlbv
        rw [if_pos ⟨by omega, hbufv⟩]
        by_cases hi0 : i = 0
        · exfalso
          subst hi0
          have hne : remIdx l values 0 (values.getD c 0) ≠ [] := by
            intro hnil
            rw [hnil, List.length_nil] at hB4
            omega
          exact (remIdx_zero_cond hne).1 hmem
        · obtain ⟨i2, rfl⟩ : ∃ i2, i = i2 + 1 := ⟨i - 1, by omega⟩
          rw [if_neg hi0]
          have hstep : remIdx l values (i2 + 1) (values.getD c 0) =
              remIdx l values i2 (values.getD c 0) := by
            rw [remIdx_succ, if_neg (fun hh => hh.2.1 hmem),
              List.nil_append]
          have hB4n : nInserted +
              (remIdx l values i2 (values.getD c 0)).length = m := by
            rw [hstep] at hB4
            exact hB4
          rw [hstep]
          exact ih i2 c nInserted junk tail (by omega) (by omega) hcn hvcl
            (Or.inr hmem) hB3 hB4n hB6
      · have htestF : ¬(lowerB l (values.getD i 0) ≠
            lowerB l (values.getD c 0) ∧
            (l.take (lowerB l (values.getD c 0)) ++ junk ++ tail).getD
              (lowerB l (values.getD i 0)) 0 = values.getD i 0) := by
          rintro ⟨h1, h2⟩
          have hlt : lowerB l (values.getD i 0) <
              lowerB l (values.getD c 0) :=
            lt_of_le_of_ne (lowerB_mono (le_of_lt hvlt)) h1
          rw [hgetD_pref _ hlt] at h2
          exact hmem ((mem_iff_lowerB hle _).mpr ⟨by omega, h2⟩)
        rw [if_neg htestF]
        rw [(show m - nInserted = junk.length by omega),
          (show lowerB l (values.getD i 0) + (m - (nInserted + 1)) =
            lowerB l (values.getD i 0) + (junk.length - 1) by omega)]
        rw [shiftUp_set_struct l junk tail (lowerB l (values.getD c 0))
          (lowerB l (values.getD i 0)) (values.getD i 0)
          (lowerB_mono (le_of_lt hvlt)) hpPl (by omega)]
        obtain ⟨jf, hjfv, hsplit⟩ :=
          remIdx_step_insert hv hic hcn hmem hvlt
        rw [hsplit, List.map_cons, hjfv, placeSteps_cons]
        have hjunk1len : (((l.take (lowerB l (values.getD c 0)) ++ junk ++
            tail).drop (lowerB l (values.getD i 0))).take
              (junk.length - 1)).length = junk.length - 1 := by
          rw [List.length_take, List.length_drop, List.length_append,
            List.length_append, htake_len]
          have := lowerB_mono (le_of_lt hvlt) (l := l)
          omega
        have hB4s : nInserted + 1 +
            (remIdx l values (i - 1) (values.getD i 0)).length = m := by
          rw [hsplit, List.length_cons] at hB4
          omega
        by_cases hlast : nInserted + 1 = m
        · rw [if_pos hlast]
          have hrem0 : remIdx l values (i - 1) (values.getD i 0) = [] := by
            apply List.length_eq_zero.mp
            omega
          rw [hrem0, List.map_nil, placeSteps_nil,
            (show junk.length - 1 = 0 by omega), List.take_zero,
            List.append_nil]
        · rw [if_neg hlast]
          by_cases hi0 : i = 0
          · exfalso
            have hrem0 : remIdx l values (i - 1)
                (values.getD i 0) = [] := by
              subst hi0
              apply List.eq_nil_iff_forall_not_mem.mpr
              intro x hx
              obtain ⟨hx1, _, _, hx4⟩ := mem_remIdx.mp hx
              have : x = 0 := by omega
              subst this
              exact lt_irrefl _ hx4
            rw [hrem0, List.length_nil] at hB4s
            omega
          · obtain ⟨i2, rfl⟩ : ∃ i2, i = i2 + 1 := ⟨i - 1, by omega⟩
            rw [if_neg hi0]
            exact ih i2 (i2 + 1) (nInserted + 1)
              (((l.take (lowerB l (values.getD c 0)) ++ junk ++
                tail).drop (lowerB l (values.getD (i2 + 1) 0))).take
                  (junk.length - 1))
              (values.getD (i2 + 1) 0 ::
                ((l.take (lowerB l (values.getD c 0))).drop
                  (lowerB l (values.getD (i2 + 1) 0)) ++ tail))
              (by omega) (by omega) (by omega) hmem (Or.inl rfl)
              (by rw [hjunk1len]; omega) hB4s (by omega)

theorem newPairs_eq (l values : List Int) (i : Nat) :
    newPairs l values i = (newIdx l values i).map
      fun j => (values.getD j 0, lowerB l (values.getD j 0)) := rfl

theorem idxPairs_pairwise {l values : List Int}
    (hv : values.Sorted (· ≤ ·)) {i : Nat} (hi : i < values.length) :
    ((newIdx l values i).map fun j =>
      (j, lowerB l (values.getD j 0))).Pairwise
        (fun a b => b.2 ≤ a.2) := by
  rw [List.pairwise_map]
  apply List.Pairwise.imp_of_mem ?_ (newIdx_pairwise l values i)
  intro a b ha hb hab
  dsimp only
  apply lowerB_mono
  have hale : a ≤ i := (mem_newIdx.mp ha).1
  exact Sorted.getD_mono hv (le_of_lt hab) (by omega)

theorem placeSteps_snd_concat (l : List Int) (Q : List (Int × Nat))
    (q : Int × Nat) (p : Nat) (t : List Int) :
    (placeSteps l (Q ++ [q]) p t).2 = q.2 := by
  rw [placeSteps_append]
  obtain ⟨v, pp⟩ := q
  rfl

theorem newIdx_split_at {l values : List Int}
    (hv : values.Sorted (· ≤ ·)) (hn : values.length ≠ 0) {k : Nat}
    (hk : k < (newIdx l values (values.length - 1)).length)
    (hc1 : 1 ≤ (newIdx l values (values.length - 1)).getD k 0) :
    (newIdx l values (values.length - 1)).drop (k + 1) =
      remIdx l values
        ((newIdx l values (values.length - 1)).getD k 0 - 1)
        (values.getD
          ((newIdx l values (values.length - 1)).getD k 0) 0) := by
  have hcmem : (newIdx l values (values.length - 1)).getD k 0 ∈
      newIdx l values (values.length - 1) := by
    rw [List.getD_eq_getElem _ 0 hk]
    exact List.getElem_mem hk
  obtain ⟨hcle, hcocc, hcnl⟩ := mem_newIdx.mp hcmem
  have hcn : (newIdx l values (values.length - 1)).getD k 0 <
      values.length := by omega
  have hgetlt : ∀ a b, a < b →
      (hb : b < (newIdx l values (values.length - 1)).length) →
      (ha : a < (newIdx l values (values.length - 1)).length) →
      (newIdx l values (values.length - 1))[b] <
        (newIdx l values (values.length - 1))[a] := by
    intro a b hab hb ha
    exact List.pairwise_iff_getElem.mp
      (newIdx_pairwise l values (values.length - 1)) a b ha hb hab
  have hmemL : ∀ x,
      x ∈ (newIdx l values (values.length - 1)).drop (k + 1) ↔
      x ∈ remIdx l values
        ((newIdx l values (values.length - 1)).getD k 0 - 1)
        (values.getD
          ((newIdx l values (values.length - 1)).getD k 0) 0) := by
    intro x
    rw [mem_remIdx]
    constructor
    · intro hx
      rcases List.mem_iff_getElem.mp hx with ⟨idx, hidx, rfl⟩
      rw [List.getElem_drop] at *
      have hidx2 : k + 1 + idx <
          (newIdx l values (values.length - 1)).length := by
        rw [List.length_drop] at hidx
        omega
      have hxlt : (newIdx l values (values.length - 1))[k + 1 + idx] <
          (newIdx l values (values.length - 1)).getD k 0 := by
        rw [List.getD_eq_getElem _ 0 hk]
        exact hgetlt k (k + 1 + idx) (by omega) hidx2 hk
      have hxmem : (newIdx l values (values.length - 1))[k + 1 + idx] ∈
          newIdx l values (values.length - 1) := List.getElem_mem hidx2
      obtain ⟨hx1, hx2, hx3⟩ := mem_newIdx.mp hxmem
      refine ⟨by omega, hx2, hx3, ?_⟩
      exact firstOcc_value_lt hv hxlt hcocc hcn
    · rintro ⟨hx1, hx2, hx3, hx4⟩
      have hxmem : x ∈ newIdx l values (values.length - 1) :=
        mem_newIdx.mpr ⟨by omega, hx2, hx3⟩
      rcases List.mem_iff_getElem.mp hxmem with ⟨idx, hidx, rfl⟩
      have hxlt : (newIdx l values (values.length - 1))[idx] <
          (newIdx l values (values.length - 1)).getD k 0 := by omega
      have hidxk : k + 1 ≤ idx := by
        by_contra habs
        push_neg at habs
        rcases Nat.lt_or_ge idx k with h | h
        · have := hgetlt idx k h hk hidx
          rw [List.getD_eq_getElem _ 0 hk] at hxlt
          omega
        · have : idx = k := by omega
          subst this
          rw [List.getD_eq_getElem _ 0 hk] at hxlt
          omega
      refine List.mem_iff_getElem.mpr
        ⟨idx - (k + 1), by rw [List.length_drop]; omega, ?_⟩
      rw [List.getElem_drop]
      congr 1
      omega
  have hpL : ((newIdx l values (values.length - 1)).drop
      (k + 1)).Pairwise (fun a b => b < a) :=
    List.Pairwise.sublist (List.drop_sublist _ _)
      (newIdx_pairwise l values _)
  have hpR := remIdx_pairwise l values
    ((newIdx l values (values.length - 1)).getD k 0 - 1)
    (values.getD ((newIdx l values (values.length - 1)).getD k 0) 0)
  haveI : IsAntisymm Nat (fun a b => b < a) :=
    ⟨fun a b h1 h2 => by omega⟩
  apply List.eq_of_perm_of_sorted ?_ hpL hpR
  apply List.perm_of_nodup_nodup_toFinset_eq
    (hpL.imp (fun h => by omega)) (hpR.imp (fun h => by omega))
  apply Finset.ext
  intro x
  rw [List.mem_toFinset, List.mem_toFinset]
  exact hmemL x

theorem insertSorted_arr {l values : List Int} (hle : l.Sorted (· ≤ ·))
    (hv : values.Sorted (· ≤ ·)) (h0 : values.length ≠ 0)
    (hl0 : l.length ≠ 0)
    (hm : (countLoop l values (values.length - 1)
      { curPos := l.length, nToInsert := 0, pairs := [] }).nToInsert ≠ 0) :
    (insertSorted l values).arr =
      l.take (placeSteps l (newPairs l values (values.length - 1))
          l.length []).2 ++
        (placeSteps l (newPairs l values (values.length - 1))
          l.length []).1 := by
  obtain ⟨hcount, hpairs⟩ := countLoop_spec hle hv (values.length - 1)
    { curPos := l.length, nToInsert := 0, pairs := [] }
    (by omega) (lowerB_le_length l _) (le_refl _)
  have hMAX : MAX_PRE_CALCULATED = 32 := rfl
  rw [Nat.zero_add] at hcount
  rw [List.nil_append, Nat.sub_zero] at hpairs
  have hPlen : (countLoop l values (values.length - 1)
      { curPos := l.length, nToInsert := 0, pairs := [] }).pairs.length =
      min MAX_PRE_CALCULATED
        (newIdx l values (values.length - 1)).length := by
    rw [hpairs, List.length_take, List.length_map]
  obtain ⟨junk2, hj2len, hph1⟩ := phase1_spec l values
    (countLoop l values (values.length - 1)
      { curPos := l.length, nToInsert := 0, pairs := [] }).nToInsert
    (countLoop l values (values.length - 1)
      { curPos := l.length, nToInsert := 0, pairs := [] }).pairs
    0 (List.replicate (countLoop l values (values.length - 1)
      { curPos := l.length, nToInsert := 0, pairs := [] }).nToInsert 0)
    [] l.length (le_refl _)
    (by rw [List.length_replicate, Nat.add_zero])
    (by rw [Nat.zero_add, hPlen, hcount]; omega)
    (by
      intro pr hpr
      rw [hpairs] at hpr
      rcases List.mem_map.mp (List.mem_of_mem_take hpr) with ⟨j, _, rfl⟩
      exact lowerB_le_length l _)
    (by
      rw [hpairs]
      exact List.Pairwise.sublist (List.take_sublist _ _)
        (idxPairs_pairwise hv (by omega)))
  rw [Nat.zero_add, hPlen] at hj2len
  have hmapP : (countLoop l values (values.length - 1)
      { curPos := l.length, nToInsert := 0, pairs := [] }).pairs.map
        (fun pr => (values.getD pr.1 0, pr.2)) =
      (newPairs l values (values.length - 1)).take MAX_PRE_CALCULATED := by
    rw [hpairs, List.map_take, List.map_map]
    rfl
  rw [hmapP] at hph1
  unfold insertSorted
  rw [if_neg h0, if_neg hl0]
  dsimp only
  rw [if_neg hm]
  have hbuf : l ++ List.replicate (countLoop l values (values.length - 1)
      { curPos := l.length, nToInsert := 0, pairs := [] }).nToInsert 0 =
      l.take l.length ++ List.replicate (countLoop l values
        (values.length - 1)
        { curPos := l.length, nToInsert := 0, pairs := [] }).nToInsert 0
        ++ [] := by
    rw [List.take_length, List.append_nil]
  rw [hbuf, hph1]
  by_cases hle32 : (countLoop l values (values.length - 1)
      { curPos := l.length, nToInsert := 0, pairs := [] }).nToInsert ≤
      MAX_PRE_CALCULATED
  · rw [if_pos hle32]
    have hfull : (newPairs l values (values.length - 1)).take
        MAX_PRE_CALCULATED = newPairs l values (values.length - 1) := by
      apply List.take_of_length_le
      rw [newPairs_eq, List.length_map]
      omega
    have hj20 : junk2 = [] := by
      apply List.length_eq_zero.mp
      rw [hcount] at hj2len hle32
      omega
    dsimp only
    rw [hj20, List.append_nil, hfull]
  · rw [if_neg hle32]
    have hmgt : MAX_PRE_CALCULATED <
        (newIdx l values (values.length - 1)).length := by
      rw [hcount] at hle32
      omega
    have h31idx : MAX_PRE_CALCULATED - 1 <
        (newIdx l values (values.length - 1)).length := by omega
    have h31P : MAX_PRE_CALCULATED - 1 <
        (countLoop l values (values.length - 1)
          { curPos := l.length, nToInsert := 0, pairs := [] }).pairs.length := by
      rw [hPlen]
      omega
    have h31W : MAX_PRE_CALCULATED - 1 <
        ((newIdx l values (values.length - 1)).map fun j =>
          (j, lowerB l (values.getD j 0))).length := by
      rw [List.length_map]
      omega
    have hvp : ((countLoop l values (values.length - 1)
        { curPos := l.length, nToInsert := 0, pairs := [] }).pairs.getD
          (MAX_PRE_CALCULATED - 1) (0, 0)).1 =
        (newIdx l values (values.length - 1)).getD
          (MAX_PRE_CALCULATED - 1) 0 := by
      rw [hpairs, List.getD_eq_getElem _ (0, 0)
          (by rw [List.length_take, List.length_map];
              omega),
        List.getElem_take, List.getElem_map,
        List.getD_eq_getElem _ 0 h31idx]
    by_cases hvp0 : ((countLoop l values (values.length - 1)
        { curPos := l.length, nToInsert := 0, pairs := [] }).pairs.getD
          (MAX_PRE_CALCULATED - 1) (0, 0)).1 = 0
    · exfalso
      have h32idx : MAX_PRE_CALCULATED <
          (newIdx l values (values.length - 1)).length := hmgt
      have hlt32 : (newIdx l values (values.length - 1)).getD
            MAX_PRE_CALCULATED 0 <
          (newIdx l values (values.length - 1)).getD
            (MAX_PRE_CALCULATED - 1) 0 := by
        rw [List.getD_eq_getElem _ 0 h32idx,
          List.getD_eq_getElem _ 0 h31idx]
        exact List.pairwise_iff_getElem.mp
          (newIdx_pairwise l values (values.length - 1)) _ _ h31idx
          h32idx (by omega)
      rw [hvp] at hvp0
      omega
    · rw [if_neg hvp0]
      rw [hvp] at hvp0
      have hc1 : 1 ≤ (newIdx l values (values.length - 1)).getD
          (MAX_PRE_CALCULATED - 1) 0 := by omega
      have hsplitIdx := newIdx_split_at hv h0 h31idx hc1
      rw [(show MAX_PRE_CALCULATED - 1 + 1 = MAX_PRE_CALCULATED
        by omega)] at hsplitIdx
      have hcmem : (newIdx l values (values.length - 1)).getD
          (MAX_PRE_CALCULATED - 1) 0 ∈
          newIdx l values (values.length - 1) := by
        rw [List.getD_eq_getElem _ 0 h31idx]
        exact List.getElem_mem h31idx
      obtain ⟨hcle, hcocc, hcnl⟩ := mem_newIdx.mp hcmem
      have hsplitPairs : newPairs l values (values.length - 1) =
          (newPairs l values (values.length - 1)).take
            MAX_PRE_CALCULATED ++
          (remIdx l values ((newIdx l values (values.length - 1)).getD
              (MAX_PRE_CALCULATED - 1) 0 - 1)
            (values.getD ((newIdx l values (values.length - 1)).getD
              (MAX_PRE_CALCULATED - 1) 0) 0)).map
            (fun j => (values.getD j 0, lowerB l (values.getD j 0))) := by
        rw [← hsplitIdx, newPairs_eq, ← List.map_take, ← List.map_append,
          List.take_append_drop]
      have hsnd : (placeSteps l ((newPairs l values
          (values.length - 1)).take MAX_PRE_CALCULATED) l.length []).2 =
          lowerB l (values.getD ((newIdx l values
            (values.length - 1)).getD (MAX_PRE_CALCULATED - 1) 0) 0) := by
        have hnp31 : MAX_PRE_CALCULATED - 1 <
            (newPairs l values (values.length - 1)).length := by
          rw [newPairs_eq, List.length_map]
          omega
        conv_lhs => rw [(show MAX_PRE_CALCULATED =
            (MAX_PRE_CALCULATED - 1) + 1 by omega),
          List.take_succ, List.getElem?_eq_getElem hnp31,
          Option.toList_some]
        rw [placeSteps_snd_concat]
        simp only [newPairs_eq, List.getElem_map]
        rw [List.getD_eq_getElem _ 0 h31idx]
      dsimp only
      conv_rhs => rw [hsplitPairs]
      rw [placeSteps_append, hsnd, hvp]
      have hB3 : junk2.length + MAX_PRE_CALCULATED =
          (countLoop l values (values.length - 1)
            { curPos := l.length, nToInsert := 0, pairs := [] }).nToInsert := by
        rw [hcount]
        omega
      have hB4 : MAX_PRE_CALCULATED +
          (remIdx l values ((newIdx l values (values.length - 1)).getD
              (MAX_PRE_CALCULATED - 1) 0 - 1)
            (values.getD ((newIdx l values (values.length - 1)).getD
              (MAX_PRE_CALCULATED - 1) 0) 0)).length =
          (countLoop l values (values.length - 1)
            { curPos := l.length, nToInsert := 0, pairs := [] }).nToInsert := by
        rw [← hsplitIdx, List.length_drop, hcount]
        omega
      have happ := phase2_spec hle hv
        ((countLoop l values (values.length - 1)
          { curPos := l.length, nToInsert := 0, pairs := [] }).nToInsert)
        (values.length + 1)
        ((newIdx l values (values.length - 1)).getD
          (MAX_PRE_CALCULATED - 1) 0 - 1)
        ((newIdx l values (values.length - 1)).getD
          (MAX_PRE_CALCULATED - 1) 0)
        MAX_PRE_CALCULATED junk2
        (placeSteps l ((newPairs l values (values.length - 1)).take
          MAX_PRE_CALCULATED) l.length []).1
        (by omega) (by omega) (by omega) hcnl
        (by
          left
          rw [(show (newIdx l values (values.length - 1)).getD
            (MAX_PRE_CALCULATED - 1) 0 - 1 + 1 =
            (newIdx l values (values.length - 1)).getD
              (MAX_PRE_CALCULATED - 1) 0 by omega)])
        hB3 hB4
        (by rw [hcount]; omega)
      exact happ

theorem newPairs_snd_mem {l values : List Int} {q : Int × Nat} {i : Nat}
    (hq : q ∈ newPairs l values i) :
    q.2 = lowerB l q.1 ∧ q.1 ∉ l := by
  rw [newPairs_eq] at hq
  rcases List.mem_map.mp hq with ⟨j, hj, rfl⟩
  exact ⟨rfl, (mem_newIdx.mp hj).2.2⟩

theorem newPairs_fst_pairwise {l values : List Int}
    (hv : values.Sorted (· ≤ ·)) {i : Nat} (hi : i < values.length) :
    (newPairs l values i).Pairwise (fun a b => b.1 < a.1) := by
  rw [newPairs_eq, List.pairwise_map]
  apply List.Pairwise.imp_of_mem ?_ (newIdx_pairwise l values i)
  intro a b ha hb hab
  have ham := mem_newIdx.mp ha
  exact firstOcc_value_lt hv hab ham.2.1 (by omega)

/-- C4: for every sorted duplicate-free array and pre-sorted batch, the
array produced by `insertSorted` is sorted with no duplicate values, and
its value set is exactly the union of the original array's values and
the batch's values. -/
theorem C4_insertSorted_sorted_dedup (l values : List Int)
    (hl : l.Sorted (· < ·)) (hv : values.Sorted (· ≤ ·)) :
    ((insertSorted l values).arr).Sorted (· < ·) ∧
    ∀ x : Int, x ∈ (insertSorted l values).arr ↔ x ∈ l ∨ x ∈ values := by
  have hle : l.Sorted (· ≤ ·) := hl.imp (fun h => le_of_lt h)
  by_cases h0 : values.length = 0
  · have hvnil : values = [] := List.length_eq_zero.mp h0
    subst hvnil
    have harr : (insertSorted l []).arr = l := rfl
    rw [harr]
    refine ⟨hl, ?_⟩
    intro x
    simp only [List.not_mem_nil, or_false]
  · by_cases hl0 : l.length = 0
    · have hlnil : l = [] := List.length_eq_zero.mp hl0
      subst hlnil
      have harr : (insertSorted [] values).arr =
          values.getD 0 0 :: emptyBuildFrom values values.length 1 := by
        unfold insertSorted
        rw [if_neg h0, if_pos hl0]
      rw [harr]
      refine ⟨emptyBuild_sorted hv, ?_⟩
      intro x
      rw [emptyBuild_mem hv h0 x]
      simp only [List.not_mem_nil, false_or]
    · by_cases hm : (countLoop l values (values.length - 1)
          { curPos := l.length, nToInsert := 0, pairs := [] }).nToInsert = 0
      · have harr : (insertSorted l values).arr = l := by
          unfold insertSorted
          rw [if_neg h0, if_neg hl0]
          dsimp only
          rw [if_pos hm]
        rw [harr]
        have hcount := (countLoop_spec hle hv (values.length - 1)
          { curPos := l.length, nToInsert := 0, pairs := [] }
          (by omega) (lowerB_le_length l _) (le_refl _)).1
        rw [hm, Nat.zero_add] at hcount
        refine ⟨hl, ?_⟩
        intro x
        constructor
        · exact fun h => Or.inl h
        · rintro (h | h)
          · exact h
          · by_contra hxl
            have hW : x ∈ (newIdx l values (values.length - 1)).map
                fun j => values.getD j 0 := by
              apply (mem_newIdx_values (by omega) x).mpr
              rcases List.mem_iff_getElem.mp h with ⟨j, hj, rfl⟩
              exact ⟨⟨j, by omega, hj,
                List.getD_eq_getElem values 0 hj⟩, hxl⟩
            rcases List.mem_map.mp hW with ⟨j, hjm, _⟩
            have : (newIdx l values (values.length - 1)).length ≠ 0 := by
              intro hz
              rw [List.length_eq_zero.mp hz] at hjm
              exact List.not_mem_nil j hjm
            omega
      · obtain ⟨hS, hM⟩ := placeSteps_props hl
          (newPairs l values (values.length - 1)) l.length []
          (le_refl _)
          (fun q hq => newPairs_snd_mem hq)
          (newPairs_fst_pairwise hv (by omega))
          (fun q _ => lowerB_le_length l _)
          List.Pairwise.nil
          (fun x hx => absurd hx (List.not_mem_nil x))
          (fun q _ x hx => absurd hx (List.not_mem_nil x))
        rw [insertSorted_arr hle hv h0 hl0 hm]
        refine ⟨hS, ?_⟩
        intro x
        rw [hM x, List.take_length]
        constructor
        · rintro (h | h | ⟨q, hq, rfl⟩)
          · exact Or.inl h
          · exact absurd h (List.not_mem_nil x)
          · right
            rw [newPairs_eq] at hq
            rcases List.mem_map.mp hq with ⟨j, hj, rfl⟩
            have := (mem_newIdx.mp hj).1
            exact getD_mem (by omega)
        · rintro (h | h)
          · exact Or.inl h
          · by_cases hxl : x ∈ l
            · exact Or.inl hxl
            · right; right
              rcases List.mem_iff_getElem.mp h with ⟨j, hj, rfl⟩
              obtain ⟨a, ha1, ha2, ha3⟩ := exists_firstOcc_le values j hj
              have hanl : values.getD a 0 ∉ l := by
                rw [ha3, List.getD_eq_getElem values 0 hj]
                intro hc
                exact hxl hc
              refine ⟨(values.getD a 0, lowerB l (values.getD a 0)), ?_, ?_⟩
              · rw [newPairs_eq]
                exact List.mem_map.mpr ⟨a,
                  mem_newIdx.mpr ⟨by omega, ha2, hanl⟩, rfl⟩
              · rw [ha3, List.getD_eq_getElem values 0 hj]

/-- Witness for C4 on a concrete input: inserting the batch `[2, 3, 4]`
into the array `[1, 3]`. -/
theorem C4_insertSorted_sorted_dedup_witness :
    ([1, 3] : List Int).Sorted (· < ·) ∧
    ([2, 3, 4] : List Int).Sorted (· ≤ ·) ∧
    (((insertSorted [1, 3] [2, 3, 4]).arr).Sorted (· < ·) ∧
     ∀ x : Int, x ∈ (insertSorted [1, 3] [2, 3, 4]).arr ↔
       x ∈ ([1, 3] : List Int) ∨ x ∈ ([2, 3, 4] : List Int)) :=
  ⟨by decide, by decide,
    C4_insertSorted_sorted_dedup [1, 3] [2, 3, 4] (by decide) (by decide)⟩

end sortedArrayManipulation
